import Mathlib

/-!
Shallow embedding of the UBO-resolution / compliance core of the repository:
`backend/services/ubo_resolver.py`, `backend/services/compliance_validation.py`
and `backend/services/risk_scoring.py`, over the data model of
`backend/models/compliance.py` and `backend/models/contact.py`.

Modelling conventions:
* Python floats are modelled as rationals (`ℚ`); `round(x, n)` and `%.1f`
  formatting use round-half-even, as CPython does.
* The per-organization database tables are modelled as in-memory lists
  (`all_links`, `all_contacts`): every SQL query in the source filters the
  org-scoped rows, so an org's snapshot is exactly such a pair of lists.
  Query result order is table order, matching list order here.
* Python `dict`s keyed by strings are association lists in insertion order
  (CPython dicts preserve insertion order); Python `set`s are lists used
  only through membership, except where the source iterates over a set, in
  which case insertion order is used as the iteration order.
* The recursion in `_find_cycles` terminates because the current path never
  revisits a node; the embedding makes this explicit with a fuel parameter
  large enough to cover every run (`graph_nodes … + 1`), returning `none`
  only on fuel exhaustion (proved unreachable below).
-/

namespace CSP

/-- `OwnershipLinkType` of `backend/models/compliance.py`. -/
inductive OwnershipLinkType where
  | ownership
  | control
  | director
  | manages
  | employee
  | family
deriving DecidableEq

/-- `ContactType` of `backend/models/contact.py`. -/
inductive ContactType where
  | company
  | individual
deriving DecidableEq

/-- The fields of a `Contact` row read by the compliance core. -/
structure Contact where
  id : String
  name : String
  contact_type : ContactType
  country : Option String := none
  nationality : Option String := none
  activity_license_activities : Option String := none
  senior_manager_contact_id : Option String := none
deriving DecidableEq

/-- The fields of an `OwnershipLink` row read by the compliance core.
`is_nominee` is a string column ("true"/"false") in the source and is
compared by string equality there. -/
structure OwnershipLink where
  owner_contact_id : String
  owned_contact_id : String
  link_type : OwnershipLinkType
  percentage : Option ℚ := none
  voting_pct : Option ℚ := none
  is_nominee : Option String := some "false"
deriving DecidableEq

/-- `UBO_THRESHOLD = 25.0` of `ubo_resolver.py`. -/
def UBO_THRESHOLD : ℚ := 25

/-- `MAX_DEPTH = 20` of `ubo_resolver.py`. -/
def MAX_DEPTH : Nat := 20

/-- Round-to-integer with ties to even, the rounding CPython's `round` and
`%.Nf` formatting apply to the scaled value. -/
def round_half_even (q : ℚ) : ℤ :=
  let f := ⌊q⌋
  let r := q - (f : ℚ)
  if r < 1/2 then f
  else if 1/2 < r then f + 1
  else if 2 ∣ f then f else f + 1

/-- Python `round(x, 1)`. -/
def round1 (q : ℚ) : ℚ := (round_half_even (q * 10) : ℚ) / 10

/-- Python `round(x, 2)`. -/
def round2 (q : ℚ) : ℚ := (round_half_even (q * 100) : ℚ) / 100

/-- Python `f"{x:.1f}"`. -/
def fmt1 (q : ℚ) : String :=
  let n := round_half_even (q * 10)
  (if n < 0 then "-" else "") ++ toString (n.natAbs / 10) ++ "." ++ toString (n.natAbs % 10)

/-- `contacts.get(cid)` over the loaded contact dict (first row wins, as the
dict comprehension over unique primary keys does). -/
def lookup_contact (cs : List Contact) (cid : String) : Option Contact :=
  cs.find? (fun c => c.id == cid)

/-- `contact and contact.contact_type == ContactType.INDIVIDUAL`. -/
def is_individual (cs : List Contact) (cid : String) : Bool :=
  match lookup_contact cs cid with
  | some c => c.contact_type == ContactType.individual
  | none => false

/-! ## `_effective_ownership_paths` (ubo_resolver.py lines 104-142) -/

/-- The reverse adjacency built at the top of `_effective_ownership_paths`:
for an owned node, the `(owner, weight)` pairs, in link order.  Only
`ownership` links with a non-null percentage and `control` links (voting
percentage defaulting to 100) contribute. -/
def incoming_of (links : List OwnershipLink) (owned : String) : List (String × ℚ) :=
  links.filterMap (fun l =>
    if l.owned_contact_id = owned then
      match l.link_type, l.percentage with
      | OwnershipLinkType.ownership, some p => some (l.owner_contact_id, p)
      | OwnershipLinkType.ownership, none => none
      | OwnershipLinkType.control, _ => some (l.owner_contact_id, l.voting_pct.getD 100)
      | _, _ => none
    else none)

/-- The mutable state threaded through the inner `dfs` of
`_effective_ownership_paths`: the `visited_paths` set of full path keys and
the `result` dict (person id, insertion-ordered, each mapped to its list of
`(path, product)` pairs). -/
structure AggSt where
  visited : List (List String)
  result : List (String × List (List String × ℚ))
deriving DecidableEq

/-- `result[node_id].append(entry)` on the insertion-ordered dict. -/
def push_result :
    List (String × List (List String × ℚ)) → String → (List String × ℚ) →
      List (String × List (List String × ℚ))
  | [], k, e => [(k, [e])]
  | kv :: rest, k, e =>
      if kv.1 = k then (kv.1, kv.2 ++ [e]) :: rest else kv :: push_result rest k e

/-- The inner `dfs(node_id, path, product, depth)` of
`_effective_ownership_paths`.  The fuel is `MAX_DEPTH + 1 - depth`, so fuel 0
is exactly the `depth > MAX_DEPTH` early return. -/
def dfs_agg (inc : String → List (String × ℚ)) (cs : List Contact) :
    Nat → String → List String → ℚ → AggSt → AggSt
  | 0, _, _, _, st => st
  | Nat.succ fuel, node, path, product, st =>
    if product ≤ 0 then st
    else if (path ++ [node]) ∈ st.visited then st
    else
      let st1 : AggSt := ⟨(path ++ [node]) :: st.visited, st.result⟩
      let st2 : AggSt :=
        if is_individual cs node then
          ⟨st1.visited, push_result st1.result node (path ++ [node], product)⟩
        else st1
      (inc node).foldl
        (fun st' ow =>
          if ow.1 ∈ path then st'
          else dfs_agg inc cs fuel ow.1 (path ++ [node]) (product * (ow.2 / 100)) st')
        st2

/-- `_effective_ownership_paths(links, contacts, target_contact_id)`. -/
def effective_ownership_paths (links : List OwnershipLink) (cs : List Contact)
    (target : String) : List (String × List (List String × ℚ)) :=
  (dfs_agg (incoming_of links) cs (MAX_DEPTH + 1) target [] 100 ⟨[], []⟩).result

/-- `_aggregate_effective(path_map)` (ubo_resolver.py lines 145-153). -/
def aggregate_effective (pm : List (String × List (List String × ℚ))) :
    List (String × ℚ) :=
  pm.map (fun kv => (kv.1, (kv.2.map Prod.snd).sum))

/-! ## `_control_ubos` (ubo_resolver.py lines 156-168) -/

/-- `_control_ubos(links, contacts, target_contact_id)`, a set built in link
order (list used through membership and iteration order). -/
def control_ubos (links : List OwnershipLink) (cs : List Contact) (target : String) :
    List String :=
  links.foldl
    (fun acc l =>
      if l.owned_contact_id = target
          ∧ (l.link_type = OwnershipLinkType.control ∨ l.link_type = OwnershipLinkType.director)
          ∧ l.is_nominee ≠ some "true"
          ∧ is_individual cs l.owner_contact_id
          ∧ l.owner_contact_id ∉ acc
      then acc ++ [l.owner_contact_id] else acc)
    []

/-! ## `_find_cycles` (ubo_resolver.py lines 70-101) -/

/-- `out_edges` adjacency of `_find_cycles`: all links, every `link_type`. -/
def out_edges_of (links : List OwnershipLink) (u : String) : List String :=
  (links.filter (fun l => l.owner_contact_id == u)).map (·.owned_contact_id)

/-- Deduplicate a list of ids, keeping first occurrences. -/
def dedup_ids (l : List String) : List String :=
  l.foldl (fun acc x => if x ∈ acc then acc else acc ++ [x]) []

/-- Every node id the cycle detector can ever touch. -/
def graph_nodes (links : List OwnershipLink) (contact_ids : List String) : List String :=
  dedup_ids (contact_ids ++
    links.foldr (fun l acc => l.owner_contact_id :: l.owned_contact_id :: acc) [])

/-- The inner `dfs(cid)` of `_find_cycles`.  `path` is the explicit path
stack (`in_path` maps each of its members to its index, and `path_set`
coincides with it, so membership in `path` models both).  On a back-edge the
sub-path from the first occurrence is recorded.  The recursion depth is
bounded by the number of distinct nodes, made explicit by fuel; `none`
models fuel exhaustion and is proved unreachable for the fuel used by
`find_cycles`. -/
def cycle_dfs (out : String → List String) :
    Nat → List String → String → List (List String) → Option (List (List String))
  | 0, _, _, _ => none
  | Nat.succ fuel, path, cid, cycles =>
    if cid ∈ path then
      let cyc := path.drop (path.indexOf cid) ++ [cid]
      some (if 1 < cyc.length then cycles ++ [cyc] else cycles)
    else
      (out cid).foldl
        (fun acc t =>
          match acc with
          | none => none
          | some cycles' => cycle_dfs out fuel (path ++ [cid]) t cycles')
        (some cycles)

/-- The `for cid in contact_ids` driver loop of `_find_cycles`: the path
state is empty again after each full DFS (pushes and pops balance), so the
`if cid not in path_set` guard is vacuous and a fresh DFS starts from every
contact id. -/
def find_cycles_go (out : String → List String) (fuel : Nat) :
    List String → List (List String) → Option (List (List String))
  | [], cycles => some cycles
  | cid :: rest, cycles =>
    match cycle_dfs out fuel [] cid cycles with
    | none => none
    | some cycles' => find_cycles_go out fuel rest cycles'

/-- `_find_cycles(links, contact_ids)`. -/
def find_cycles (links : List OwnershipLink) (contact_ids : List String) :
    Option (List (List String)) :=
  find_cycles_go (out_edges_of links) ((graph_nodes links contact_ids).length + 1)
    contact_ids []

/-! ## `_load_links_and_contacts` (ubo_resolver.py lines 19-67) -/

/-- Whether a link touches the current id set (the SQL `or` filter). -/
def touches (ids : List String) (l : OwnershipLink) : Bool :=
  decide (l.owner_contact_id ∈ ids) || decide (l.owned_contact_id ∈ ids)

/-- `contact_ids.add(x)` (a set, used through membership only). -/
def insert_id (ids : List String) (x : String) : List String :=
  if x ∈ ids then ids else ids ++ [x]

/-- Add both endpoints of each link to the id set. -/
def add_endpoints (ids : List String) (ls : List OwnershipLink) : List String :=
  ls.foldl (fun acc l => insert_id (insert_id acc l.owner_contact_id) l.owned_contact_id) ids

/-- The `while depth < MAX_DEPTH` expansion loop of
`_load_links_and_contacts`: two one-step expansions per iteration, breaking
when no link touches the set or when the second expansion adds nothing. -/
def load_loop (all_links : List OwnershipLink) : Nat → List String → List String
  | 0, ids => ids
  | Nat.succ d, ids =>
    let ls := all_links.filter (touches ids)
    if ls = [] then ids
    else
      let ids1 := add_endpoints ids ls
      let prev := ids1.length
      let more := all_links.filter (touches ids1)
      let ids2 := add_endpoints ids1 more
      if ids2.length = prev then ids2 else load_loop all_links d ids2

/-- `_load_links_and_contacts(db, org_id, root_contact_id)`: the links with
both endpoints in the expanded id set, and the contact rows with id in the
set (in table order, as the queries return them). -/
def load_links_and_contacts (all_links : List OwnershipLink) (all_contacts : List Contact)
    (root : String) : List OwnershipLink × List Contact :=
  let ids := load_loop all_links MAX_DEPTH [root]
  (all_links.filter (fun l =>
      decide (l.owner_contact_id ∈ ids) && decide (l.owned_contact_id ∈ ids)),
   all_contacts.filter (fun c => decide (c.id ∈ ids)))

/-! ## `resolve_ubos` (ubo_resolver.py lines 171-263) -/

/-- One entry of the returned `ubos` list. -/
structure UboEntry where
  contact_id : String
  name : String
  effective_pct : ℚ
  is_control : Bool
  is_senior_manager_fallback : Bool
deriving DecidableEq

/-- `c.name if c else person_id`. -/
def name_of (cs : List Contact) (cid : String) : String :=
  match lookup_contact cs cid with
  | some c => c.name
  | none => cid

/-- One iteration of the first classification loop of `resolve_ubos` (lines
201-213): skip if already seen, classify on the threshold-or-control test.
The state is the pair (ubos list, seen set). -/
def ubo_loop1_step (ctl : List String) (cs : List Contact)
    (st : List UboEntry × List String) (pq : String × ℚ) :
    List UboEntry × List String :=
  if pq.1 ∈ st.2 then st
  else if UBO_THRESHOLD ≤ pq.2 ∨ pq.1 ∈ ctl then
    (st.1 ++ [{ contact_id := pq.1, name := name_of cs pq.1,
                effective_pct := round2 pq.2,
                is_control := decide (pq.1 ∈ ctl)
                  && (decide (pq.2 < UBO_THRESHOLD) || decide (pq.2 = 0)),
                is_senior_manager_fallback := false }],
     st.2 ++ [pq.1])
  else st

/-- One iteration of the second classification loop of `resolve_ubos` (lines
214-224): every not-yet-seen control UBO is appended; Python's
`aggregated.get(person_id, 0) or 0` is the inner `if v = 0` expression. -/
def ubo_loop2_step (agg : List (String × ℚ)) (cs : List Contact)
    (st : List UboEntry × List String) (pid : String) :
    List UboEntry × List String :=
  if pid ∈ st.2 then st
  else
    let v := (List.lookup pid agg).getD 0
    (st.1 ++ [{ contact_id := pid, name := name_of cs pid,
                effective_pct := if v = 0 then 0 else v,
                is_control := true,
                is_senior_manager_fallback := false }],
     st.2 ++ [pid])

/-- The two classification loops of `resolve_ubos` (lines 199-224): the pass
over `aggregated.items()` with the threshold-or-control test, then the pass
over `control_ubos`, sharing the `seen` set. -/
def main_ubo_entries (agg : List (String × ℚ)) (ctl : List String) (cs : List Contact) :
    List UboEntry :=
  (ctl.foldl (ubo_loop2_step agg cs) (agg.foldl (ubo_loop1_step ctl cs) ([], []))).1

/-- The body of a fallback append: in scope, append one entry when the
senior manager is an individual, nothing otherwise. -/
def sm_fallback_entry (cs : List Contact) (sid : String) : List UboEntry :=
  match lookup_contact cs sid with
  | some c =>
      if c.contact_type = ContactType.individual then
        [{ contact_id := sid, name := c.name, effective_pct := 0,
           is_control := false, is_senior_manager_fallback := true }]
      else []
  | none => []

/-- Python truthiness-and-membership test
`x and x in contacts` for an optional id. -/
def truthy_present (cs : List Contact) : Option String → Bool
  | none => false
  | some s => (s != "") && (lookup_contact cs s).isSome

/-- The senior-manager fallback `if/elif` of `resolve_ubos` (lines 226-246),
already assuming `not ubos` (the caller appends this only when the main list
is empty). -/
def fallback_entries (cs : List Contact) (entity : Contact) (sm_arg : Option String) :
    List UboEntry :=
  if truthy_present cs sm_arg then sm_fallback_entry cs (sm_arg.getD "")
  else if truthy_present cs entity.senior_manager_contact_id then
    sm_fallback_entry cs (entity.senior_manager_contact_id.getD "")
  else []

/-- `sum(l.percentage or 0 for l in links if owned == target and OWNERSHIP)`. -/
def total_ownership_into (links : List OwnershipLink) (target : String) : ℚ :=
  ((links.filter (fun l =>
      decide (l.owned_contact_id = target)
        && decide (l.link_type = OwnershipLinkType.ownership))).map
    (fun l => l.percentage.getD 0)).sum

/-- The dict returned by `resolve_ubos`. -/
structure ResolutionResult where
  ubos : List UboEntry
  effective_ownership : List (String × ℚ)
  cycles : List (List String)
  warnings : List String
deriving DecidableEq

/-- `resolve_ubos(db, org_id, entity_contact_id, senior_manager_contact_id)`.
`none` only on cycle-detector fuel exhaustion, which never happens. -/
def resolve_ubos (all_links : List OwnershipLink) (all_contacts : List Contact)
    (entity_contact_id : String) (senior_manager_contact_id : Option String) :
    Option ResolutionResult :=
  let lc := load_links_and_contacts all_links all_contacts entity_contact_id
  match lookup_contact lc.2 entity_contact_id with
  | none => some ⟨[], [], [], ["Entity not found"]⟩
  | some entity =>
    match find_cycles lc.1 (lc.2.map (·.id)) with
    | none => none
    | some cycles =>
      let agg := aggregate_effective (effective_ownership_paths lc.1 lc.2 entity_contact_id)
      let ctl := control_ubos lc.1 lc.2 entity_contact_id
      let main := main_ubo_entries agg ctl lc.2
      let ubos := main ++
        (if main = [] then fallback_entries lc.2 entity senior_manager_contact_id else [])
      let total := total_ownership_into lc.1 entity_contact_id
      let warnings :=
        (if cycles ≠ [] then ["Cycle(s) detected in ownership structure"] else [])
          ++ (if 1/100 < |total - 100| then
                ["Total ownership sums to " ++ fmt1 total ++ "%, not 100%"] else [])
      some ⟨ubos, agg.map (fun kv => (kv.1, round2 kv.2)), cycles, warnings⟩

/-! ## `validate_entity` (compliance_validation.py lines 14-78) -/

/-- The dict returned by `validate_entity`; `dead_ends` entries are
`(contact_id, name)` pairs. -/
structure ValidationResult where
  ownership_sum_valid : Bool
  total_percentage : ℚ
  dead_ends : List (String × String)
  cycles : List (List String)
  warnings : List String
deriving DecidableEq

/-- The dead-end loop of `validate_entity` (lines 56-70): for each loaded
company other than the root that appears as an owner, re-run the full
`resolve_ubos` rooted at it against the org snapshot. -/
def dead_ends_go (all_links : List OwnershipLink) (all_contacts : List Contact)
    (links : List OwnershipLink) (cs : List Contact) (root : String) :
    List String → List (String × String) → Option (List (String × String))
  | [], acc => some acc
  | cid :: rest, acc =>
    match lookup_contact cs cid with
    | none => dead_ends_go all_links all_contacts links cs root rest acc
    | some c =>
      if c.contact_type ≠ ContactType.company then
        dead_ends_go all_links all_contacts links cs root rest acc
      else if cid = root then
        dead_ends_go all_links all_contacts links cs root rest acc
      else if ¬ links.any (fun l => l.owner_contact_id == cid) then
        dead_ends_go all_links all_contacts links cs root rest acc
      else
        match resolve_ubos all_links all_contacts cid none with
        | none => none
        | some r =>
          dead_ends_go all_links all_contacts links cs root rest
            (if r.ubos = [] then acc ++ [(cid, c.name)] else acc)

/-- `validate_entity(db, org_id, entity_contact_id)`. -/
def validate_entity (all_links : List OwnershipLink) (all_contacts : List Contact)
    (entity_contact_id : String) : Option ValidationResult :=
  let lc := load_links_and_contacts all_links all_contacts entity_contact_id
  match lookup_contact lc.2 entity_contact_id with
  | none => some ⟨false, 0, [], [], ["Entity not found"]⟩
  | some _ =>
    let total := total_ownership_into lc.1 entity_contact_id
    let valid := decide (|total - 100| < 1/100)
    let w1 := if valid then [] else ["Total ownership is " ++ fmt1 total ++ "%, not 100%"]
    match find_cycles lc.1 (lc.2.map (·.id)) with
    | none => none
    | some cycles =>
      let w2 := w1 ++ (if cycles ≠ [] then ["Cycle(s) detected in ownership structure"] else [])
      match dead_ends_go all_links all_contacts lc.1 lc.2 entity_contact_id
          (lc.2.map (·.id)) [] with
      | none => none
      | some de => some ⟨valid, round2 total, de, cycles, w2⟩

/-! ## Risk scoring (risk_scoring.py) -/

def HIGH_RISK_COUNTRIES : List String := ["IR", "KP", "SY", "RU", "BY"]

def MEDIUM_RISK_COUNTRIES : List String :=
  ["AF", "MM", "IQ", "LY", "SO", "YE", "SD", "SS", "CD", "ML", "NG", "VE", "ET", "HT"]

def HIGH_RISK_ACTIVITIES : List String :=
  ["gambling", "casino", "weapon", "arms", "precious metal", "gem", "diamond",
   "cash", "money transfer", "crypto", "bitcoin", "forex", "trust", "foundation"]

def MEDIUM_RISK_ACTIVITIES : List String :=
  ["real estate", "construction", "import", "export", "trading", "trading company"]

/-- Python `str.lower()` (character-wise; the data here is ASCII). -/
def str_lower (s : String) : String := ⟨s.data.map Char.toLower⟩

/-- Python `str.upper()` (character-wise; the data here is ASCII). -/
def str_upper (s : String) : String := ⟨s.data.map Char.toUpper⟩

/-- Python `str.strip()`: drop leading and trailing whitespace. -/
def str_strip (s : String) : String :=
  ⟨((s.data.dropWhile Char.isWhitespace).reverse.dropWhile Char.isWhitespace).reverse⟩

/-- Python `s[:n]`. -/
def str_take (s : String) (n : Nat) : String := ⟨s.data.take n⟩

/-- Whether `needle` is a prefix of `hay` (as character lists). -/
def chars_prefix : List Char → List Char → Bool
  | [], _ => true
  | _ :: _, [] => false
  | n :: ns, h :: hs => n == h && chars_prefix ns hs

/-- Substring test `needle in hay`. -/
def str_contains (hay needle : String) : Bool :=
  (List.range (hay.data.length + 1)).any (fun i => chars_prefix needle.data (hay.data.drop i))

/-- Python `a or b` on optional strings ("" is falsy). -/
def py_str_or (a b : Option String) : Option String :=
  match a with
  | some s => if s = "" then b else some s
  | none => b

/-- `_nationality_score(country)` (risk_scoring.py lines 34-42). -/
def nationality_score (country : Option String) : ℚ :=
  match country with
  | none => 50
  | some s =>
    if str_strip s = "" then 50
    else
      let code := str_upper (str_take (str_strip s) 2)
      if code ∈ HIGH_RISK_COUNTRIES then 90
      else if code ∈ MEDIUM_RISK_COUNTRIES then 60
      else 20

/-- `_industry_score(activities)` (risk_scoring.py lines 45-55); the caller
passes `contact.activity_license_activities or ""`, so the empty string is
the falsy case. -/
def industry_score (activities : String) : ℚ :=
  if activities = "" then 30
  else
    let lower := str_lower activities
    if HIGH_RISK_ACTIVITIES.any (fun a => str_contains lower a) then 85
    else if MEDIUM_RISK_ACTIVITIES.any (fun a => str_contains lower a) then 55
    else 25

/-- The `while stack and depth < 15` loop of `_complexity_score`
(risk_scoring.py lines 58-96).  The stack is kept most-recent-first (Python
appends and pops at the tail; consing in push order gives the same LIFO
behaviour), `seen` is the visited set, `depth` counts loop iterations
(fuel = 15 - depth). -/
def complexity_loop (all_links : List OwnershipLink) :
    Nat → List (String × Nat) → List String → Nat → Nat → Nat × Nat
  | 0, _, _, max_d, total_l => (max_d, total_l)
  | Nat.succ _, [], _, max_d, total_l => (max_d, total_l)
  | Nat.succ fuel, (cid, d) :: rest, seen, max_d, total_l =>
    let max_d1 := max max_d d
    let links_out := all_links.filter (fun l => l.owner_contact_id == cid)
    let links_in := all_links.filter (fun l => l.owned_contact_id == cid)
    let total_l1 := total_l + links_out.length + links_in.length
    let s1 := links_out.foldl
      (fun (ss : List (String × Nat) × List String) l =>
        if l.owned_contact_id ∈ ss.2 then ss
        else ((l.owned_contact_id, d + 1) :: ss.1, ss.2 ++ [l.owned_contact_id]))
      (rest, seen)
    let s2 := links_in.foldl
      (fun (ss : List (String × Nat) × List String) l =>
        if l.owner_contact_id ∈ ss.2 then ss
        else ((l.owner_contact_id, d + 1) :: ss.1, ss.2 ++ [l.owner_contact_id]))
      s1
    complexity_loop all_links fuel s2.1 s2.2 max_d1 total_l1

/-- `_complexity_score(db, org_id, contact_id)`:
`min(95, 20 + max_depth * 15 + min(40, total_links * 2))`. -/
def complexity_score (all_links : List OwnershipLink) (contact_id : String) : ℚ :=
  let md_tl := complexity_loop all_links 15 [(contact_id, 0)] [contact_id] 0 0
  ((min 95 (20 + md_tl.1 * 15 + min 40 (md_tl.2 * 2)) : Nat) : ℚ)

/-- The `weights` parameter of `score_contact_risk`: at most the three keys
the source reads.  A missing field is a missing dict key. -/
structure RiskWeights where
  nationality : Option ℚ := none
  industry : Option ℚ := none
  complexity : Option ℚ := none
deriving DecidableEq

def DEFAULT_WEIGHTS : RiskWeights :=
  { nationality := some 40, industry := some 30, complexity := some 30 }

/-- The three factor scores in `factors_json`. -/
structure RiskFactors where
  nationality : ℚ
  industry : ℚ
  complexity : ℚ
deriving DecidableEq

/-- The dict returned by `score_contact_risk` (band as its string value). -/
structure RiskResult where
  risk_score : Option ℚ
  risk_band : Option String
  factors_json : Option RiskFactors
deriving DecidableEq

/-- `score_contact_risk(db, org_id, contact_id, weights)` (lines 99-140).
`weights or DEFAULT_WEIGHTS` followed by `w.get(key, default)` makes an
absent map, an empty map and absent keys all fall back to the default
weights; `getD` on the optional fields captures all those cases. -/
def score_contact_risk (all_links : List OwnershipLink) (all_contacts : List Contact)
    (contact_id : String) (weights : Option RiskWeights) : RiskResult :=
  match lookup_contact all_contacts contact_id with
  | none => ⟨none, none, none⟩
  | some contact =>
    let w := weights.getD {}
    let n_score := nationality_score (py_str_or contact.country contact.nationality)
    let act := contact.activity_license_activities.getD ""
    let i_score := industry_score act
    let c_score := complexity_score all_links contact_id
    let wn := w.nationality.getD 40
    let wi := w.industry.getD 30
    let wc := w.complexity.getD 30
    let total_w := if wn + wi + wc = 0 then 100 else wn + wi + wc
    let risk0 := n_score * (wn / total_w) + i_score * (wi / total_w) + c_score * (wc / total_w)
    let risk := round1 (min 100 (max 0 risk0))
    let band := if 70 ≤ risk then "high" else if 40 ≤ risk then "medium" else "low"
    ⟨some risk, some band, some ⟨n_score, i_score, c_score⟩⟩

/-- The composite as the spec's words describe it (claim C9): a weighted
average over the weights actually supplied in the map (an absent key
contributes nothing), normalized by the sum of the supplied weights.  Stated
only to compare against the source implementation. -/
def claim_normalized_composite (n i c : ℚ) (w : RiskWeights) : ℚ :=
  let num := (w.nationality.getD 0) * n + (w.industry.getD 0) * i + (w.complexity.getD 0) * c
  let den := (w.nationality.getD 0) + (w.industry.getD 0) + (w.complexity.getD 0)
  num / den

/-! ## Concrete scenarios used by the claims -/

/-- Company A, shareholder of the root in the dead-end scenario. -/
def ct_alpha : Contact := { id := "A", name := "Alpha Ltd", contact_type := .company }

/-- Company B, the root of the dead-end scenario. -/
def ct_beta : Contact := { id := "B", name := "Beta Ltd", contact_type := .company }

/-- The single edge A →(ownership 100%) B of the dead-end scenario. -/
def ln_a_owns_b : OwnershipLink :=
  { owner_contact_id := "A", owned_contact_id := "B", link_type := .ownership,
    percentage := some 100 }

/-- Party with blank country and activities "general trading" (claim C2). -/
def ct_trader : Contact :=
  { id := "p1", name := "Trader", contact_type := .company, country := some "",
    nationality := none, activity_license_activities := some "general trading" }

/-- Party with blank country and no activities (claim C9 counterexample). -/
def ct_plain : Contact :=
  { id := "q1", name := "Plain", contact_type := .company, country := some "",
    nationality := none, activity_license_activities := none }

/-- Ownership edge a → b of the two-node cycle (claim C10). -/
def ln_ab : OwnershipLink :=
  { owner_contact_id := "a", owned_contact_id := "b", link_type := .ownership,
    percentage := some 50 }

/-- Ownership edge b → a of the two-node cycle (claim C10). -/
def ln_ba : OwnershipLink :=
  { owner_contact_id := "b", owned_contact_id := "a", link_type := .ownership,
    percentage := some 50 }

/-- Ownership edge c → a: an extra node feeding the a/b cycle (claim C10). -/
def ln_ca : OwnershipLink :=
  { owner_contact_id := "c", owned_contact_id := "a", link_type := .ownership,
    percentage := some 50 }

/-- Individuals x and y joined only by a `family` link (claim C3). -/
def ct_x : Contact := { id := "x", name := "X", contact_type := .individual }

def ct_y : Contact := { id := "y", name := "Y", contact_type := .individual }

def ln_xy_family : OwnershipLink :=
  { owner_contact_id := "x", owned_contact_id := "y", link_type := .family }

/-- Root company E whose stored senior manager is M (claim C5). -/
def ct_entity : Contact :=
  { id := "E", name := "Ent", contact_type := .company,
    senior_manager_contact_id := some "M" }

/-- Individual M, the senior manager (claim C5). -/
def ct_manager : Contact := { id := "M", name := "Mgr", contact_type := .individual }

/-- The `manages` link M → E (claim C5): carries no ownership weight. -/
def ln_me_manages : OwnershipLink :=
  { owner_contact_id := "M", owned_contact_id := "E", link_type := .manages }

/-- Root company R (claims C1 and C4). -/
def ct_r : Contact := { id := "R", name := "R Co", contact_type := .company }

/-- Individual P (claims C1 and C4). -/
def ct_p : Contact := { id := "P", name := "P Ind", contact_type := .individual }

/-- Individual Q, controller of R in the C1 counterexample. -/
def ct_q : Contact := { id := "Q", name := "Q Ind", contact_type := .individual }

/-- P →(ownership 100%) R. -/
def ln_p_owns_r : OwnershipLink :=
  { owner_contact_id := "P", owned_contact_id := "R", link_type := .ownership,
    percentage := some 100 }

/-- Q →(control, voting 100) R. -/
def ln_q_controls_r : OwnershipLink :=
  { owner_contact_id := "Q", owned_contact_id := "R", link_type := .control,
    voting_pct := some 100 }

/-- P →(ownership 25%) R (claim C4, boundary inclusion). -/
def ln_p_25 : OwnershipLink :=
  { owner_contact_id := "P", owned_contact_id := "R", link_type := .ownership,
    percentage := some 25 }

/-- P →(ownership 24.99%) R (claim C4, boundary exclusion). -/
def ln_p_2499 : OwnershipLink :=
  { owner_contact_id := "P", owned_contact_id := "R", link_type := .ownership,
    percentage := some (2499/100) }

/-! ## C2 — risk-scoring scenario -/

/-- C2 counterexample: for the party with blank country, activities
"general trading", no edges and default weights, the code's industry factor
is 55 (the medium-risk keyword "trading" is a substring match), not the
claimed 25; the composite is 42.5, not 33.5, and the band is "medium", not
"low". -/
theorem c2_counterexample :
    (score_contact_risk [] [ct_trader] "p1" none).factors_json ≠ some ⟨50, 25, 20⟩
    ∧ (score_contact_risk [] [ct_trader] "p1" none).risk_score ≠ some (67/2)
    ∧ (score_contact_risk [] [ct_trader] "p1" none).risk_band ≠ some "low"
    ∧ (score_contact_risk [] [ct_trader] "p1" none).factors_json = some ⟨50, 55, 20⟩ := by
  decide!

/-- C2 (amended): for a party with blank country, activity text
"general trading", no relationship edges and default weights,
`score_contact_risk` yields nationality=50, industry=55 (the medium-risk
keyword "trading" matches), complexity=20, composite 42.5 and band
"medium". -/
theorem c2_risk_scenario :
    score_contact_risk [] [ct_trader] "p1" none
      = { risk_score := some (85/2), risk_band := some "medium",
          factors_json := some ⟨50, 55, 20⟩ } := by
  decide!

/-! ## C7 — dead-end detection scenario -/

/-- C7: for the graph whose only edge is A →(ownership 100%) B with B the
root, `validate_entity` rooted at B reports dead_ends = [A],
ownership_sum_valid = true with total 100 and no cycles, and `resolve_ubos`
rooted at A returns an empty UBO list (which is what makes A a dead end). -/
theorem c7_dead_end_scenario :
    validate_entity [ln_a_owns_b] [ct_alpha, ct_beta] "B"
      = some { ownership_sum_valid := true, total_percentage := 100,
               dead_ends := [("A", "Alpha Ltd")], cycles := [], warnings := [] }
    ∧ (resolve_ubos [ln_a_owns_b] [ct_alpha, ct_beta] "A" none).map (·.ubos) = some [] := by
  decide!

/-! ## C10 — cycle rotation multiplicity -/

/-- C10 counterexample: with an extra node c that reaches the a/b cycle
(edge c → a), the single simple two-node cycle is recorded three times (the
rotation [a, b, a] twice), not "once per node of the cycle". -/
theorem c10_counterexample :
    find_cycles [ln_ab, ln_ba, ln_ca] ["a", "b", "c"]
      = some [["a", "b", "a"], ["b", "a", "b"], ["a", "b", "a"]]
    ∧ (find_cycles [ln_ab, ln_ba, ln_ca] ["a", "b", "c"]).map
        (fun l => List.count ["a", "b", "a"] l) = some 2 := by
  decide!

/-- C10 (amended): the path state is empty again between the DFS starts
launched from every contact id, so every start that reaches a cycle records
it again; when the graph is exactly one simple cycle over its contact set,
each of the k nodes contributes one rotated variant — for the two-edge
cycle a → b → a over contact set [a, b], exactly the two entries
[a, b, a] and [b, a, b] are returned. -/
theorem c10_rotation_variants :
    find_cycles [ln_ab, ln_ba] ["a", "b"] = some [["a", "b", "a"], ["b", "a", "b"]] := by
  decide!

/-! ## C8 — missing-root degradation -/

lemma lookup_contact_eq_none {cs : List Contact} {cid : String}
    (h : ∀ c ∈ cs, c.id ≠ cid) : lookup_contact cs cid = none := by
  apply List.find?_eq_none.mpr
  intro c hc
  simpa using h c hc

lemma loaded_contacts_subset {all_links : List OwnershipLink} {all_contacts : List Contact}
    {root : String} {c : Contact}
    (hc : c ∈ (load_links_and_contacts all_links all_contacts root).2) :
    c ∈ all_contacts := by
  simp only [load_links_and_contacts] at hc
  exact (List.mem_filter.mp hc).1

/-- C8: for every root party identifier with no contact row in the scope,
`resolve_ubos` and `validate_entity` return normally with an empty result
and the "Entity not found" warning. -/
theorem c8_missing_root (all_links : List OwnershipLink) (all_contacts : List Contact)
    (root : String) (sm : Option String)
    (h : ∀ c ∈ all_contacts, c.id ≠ root) :
    resolve_ubos all_links all_contacts root sm = some ⟨[], [], [], ["Entity not found"]⟩
    ∧ validate_entity all_links all_contacts root
        = some ⟨false, 0, [], [], ["Entity not found"]⟩ := by
  have hl : lookup_contact (load_links_and_contacts all_links all_contacts root).2 root
      = none :=
    lookup_contact_eq_none (fun c hc => h c (loaded_contacts_subset hc))
  constructor
  · simp only [resolve_ubos, hl]
  · simp only [validate_entity, hl]

/-- C8 witness: the degradation at a concrete input. -/
theorem c8_missing_root_witness :
    resolve_ubos [ln_me_manages] [ct_entity, ct_manager] "ZZZ" none
      = some ⟨[], [], [], ["Entity not found"]⟩
    ∧ validate_entity [ln_me_manages] [ct_entity, ct_manager] "ZZZ"
        = some ⟨false, 0, [], [], ["Entity not found"]⟩ :=
  c8_missing_root [ln_me_manages] [ct_entity, ct_manager] "ZZZ" none (by decide)

/-! ## C3 — edge-kind exclusion -/

/-- Removing every `employee`/`family` edge from a snapshot. -/
def drop_employee_family (links : List OwnershipLink) : List OwnershipLink :=
  links.filter (fun l =>
    decide (l.link_type ≠ OwnershipLinkType.employee)
      && decide (l.link_type ≠ OwnershipLinkType.family))

/-- C3 counterexample: a single `family` edge changes the complexity factor
(and hence the whole risk result) of `score_contact_risk`, so employee and
family edges are not excluded from every traversal the core performs. -/
theorem c3_counterexample :
    (score_contact_risk [ln_xy_family] [ct_x, ct_y] "x" none).factors_json
      = some ⟨50, 30, 39⟩
    ∧ (score_contact_risk (drop_employee_family [ln_xy_family]) [ct_x, ct_y] "x" none).factors_json
      = some ⟨50, 30, 20⟩
    ∧ score_contact_risk [ln_xy_family] [ct_x, ct_y] "x" none
        ≠ score_contact_risk (drop_employee_family [ln_xy_family]) [ct_x, ct_y] "x" none := by
  decide!

lemma filterMap_filter_of_none {α β : Type} (f : α → Option β) (p : α → Bool)
    (h : ∀ a, p a = false → f a = none) :
    ∀ l : List α, (l.filter p).filterMap f = l.filterMap f := by
  intro l
  induction l with
  | nil => rfl
  | cons a t ih =>
    by_cases hp : p a = true
    · simp only [List.filter_cons, hp, if_true, List.filterMap_cons]
      rw [ih]
    · have hp' : p a = false := by simpa using hp
      simp only [List.filter_cons, hp', Bool.false_eq_true, if_false, List.filterMap_cons,
        h a hp']
      exact ih

lemma foldl_filter_of_skip {α β : Type} (f : β → α → β) (p : α → Bool)
    (h : ∀ b a, p a = false → f b a = b) :
    ∀ (l : List α) (b : β), (l.filter p).foldl f b = l.foldl f b := by
  intro l
  induction l with
  | nil => intro b; rfl
  | cons a t ih =>
    intro b
    by_cases hp : p a = true
    · simp only [List.filter_cons, hp, if_true, List.foldl_cons]
      exact ih _
    · have hp' : p a = false := by simpa using hp
      simp only [List.filter_cons, hp', Bool.false_eq_true, if_false, List.foldl_cons,
        h b a hp']
      exact ih _

lemma incoming_of_drop (links : List OwnershipLink) :
    incoming_of (drop_employee_family links) = incoming_of links := by
  funext owned
  apply filterMap_filter_of_none
  intro l hl
  cases hlt : l.link_type <;> simp [hlt] at hl ⊢

lemma control_ubos_drop (links : List OwnershipLink) (cs : List Contact) (target : String) :
    control_ubos (drop_employee_family links) cs target = control_ubos links cs target := by
  unfold control_ubos drop_employee_family
  apply foldl_filter_of_skip
  intro b l hl
  cases hlt : l.link_type <;> simp [hlt] at hl ⊢

/-- C3 (amended): employee/family edges are excluded from the ownership-path
aggregation and from control classification — removing them changes neither
`effective_ownership_paths` nor `control_ubos` — but they do participate in
subgraph loading, cycle detection and the complexity factor (see the
counterexample), so the other outputs of the core can change. -/
theorem c3_kind_exclusion (links : List OwnershipLink) (cs : List Contact) (root : String) :
    effective_ownership_paths (drop_employee_family links) cs root
      = effective_ownership_paths links cs root
    ∧ control_ubos (drop_employee_family links) cs root = control_ubos links cs root := by
  constructor
  · unfold effective_ownership_paths
    rw [incoming_of_drop]
  · exact control_ubos_drop links cs root

/-! ## C9 — weight normalization -/

/-- C9 counterexample: for a weights map supplying only `nationality := 100`,
the spec's normalization (by the sum of supplied weights) would return the
nationality sub-score 50 unchanged, but the source fills the missing keys
with the default weights 30/30 and divides by 160, returning 40.6. -/
theorem c9_counterexample :
    (score_contact_risk [] [ct_plain] "q1" (some { nationality := some 100 })).factors_json
      = some ⟨50, 30, 20⟩
    ∧ (score_contact_risk [] [ct_plain] "q1" (some { nationality := some 100 })).risk_score
      = some (203/5)
    ∧ round1 (claim_normalized_composite 50 30 20 { nationality := some 100 }) = 50
    ∧ (203/5 : ℚ) ≠ 50 := by
  decide!

lemma round_half_even_ge_floor (q : ℚ) : ⌊q⌋ ≤ round_half_even q := by
  simp only [round_half_even]
  split_ifs <;> omega

lemma round_half_even_le (q : ℚ) : (round_half_even q : ℚ) ≤ q + 1/2 := by
  have hfl : (⌊q⌋ : ℚ) ≤ q := Int.floor_le q
  simp only [round_half_even]
  split_ifs with h1 h2 h3
  · linarith
  · push_cast
    linarith
  · linarith
  · push_cast
    have : ¬ (q - (⌊q⌋ : ℚ) < 1/2) := h1
    have : ¬ (1/2 < q - (⌊q⌋ : ℚ)) := h2
    linarith

lemma round1_nonneg {q : ℚ} (h : 0 ≤ q) : 0 ≤ round1 q := by
  have h10 : (0 : ℚ) ≤ q * 10 := by linarith
  have hz : (0 : ℤ) ≤ round_half_even (q * 10) :=
    le_trans (Int.floor_nonneg.mpr h10) (round_half_even_ge_floor (q * 10))
  have hq : (0 : ℚ) ≤ (round_half_even (q * 10) : ℚ) := by exact_mod_cast hz
  unfold round1
  exact div_nonneg hq (by norm_num)

lemma round1_le_100 {q : ℚ} (h : q ≤ 100) : round1 q ≤ 100 := by
  have h2 : (round_half_even (q * 10) : ℚ) ≤ q * 10 + 1/2 := round_half_even_le (q * 10)
  have h3 : (round_half_even (q * 10) : ℚ) < 1001 := by linarith
  have h4 : round_half_even (q * 10) ≤ 1000 := by
    have h3' : round_half_even (q * 10) < 1001 := by exact_mod_cast h3
    omega
  have h5 : (round_half_even (q * 10) : ℚ) ≤ 1000 := by exact_mod_cast h4
  unfold round1
  rw [div_le_iff₀ (by norm_num : (0 : ℚ) < 10)]
  linarith

/-- C9 (amended): `score_contact_risk` fills each missing weight key with the
default weight (40/30/30) and normalizes by the sum of those effective
weights (a zero sum is replaced by 100), rather than by the sum of the keys
actually supplied: supplying the defaults explicitly yields the identical
result, and for every weight map the returned risk_score of an existing
contact is clamped into [0, 100] and is a multiple of 1/10 (one decimal). -/
theorem c9_weight_normalization :
    (∀ (links : List OwnershipLink) (cs : List Contact) (cid : String)
        (a b c : Option ℚ),
      score_contact_risk links cs cid (some ⟨a, b, c⟩)
        = score_contact_risk links cs cid
            (some ⟨some (a.getD 40), some (b.getD 30), some (c.getD 30)⟩))
    ∧ (∀ (links : List OwnershipLink) (cs : List Contact) (cid : String)
        (w : Option RiskWeights) (s : ℚ),
      (score_contact_risk links cs cid w).risk_score = some s →
        0 ≤ s ∧ s ≤ 100 ∧ ∃ n : ℤ, s = (n : ℚ) / 10) := by
  constructor
  · intro links cs cid a b c
    cases hc : lookup_contact cs cid <;> simp [score_contact_risk, hc]
  · intro links cs cid w s hs
    cases hc : lookup_contact cs cid with
    | none => simp [score_contact_risk, hc] at hs
    | some contact =>
      simp only [score_contact_risk, hc, Option.some.injEq] at hs
      subst hs
      refine ⟨round1_nonneg ?_, round1_le_100 ?_, ?_⟩
      · exact le_min (by norm_num) (le_max_left _ _)
      · exact min_le_left _ _
      · exact ⟨round_half_even (min 100 (max 0 _) * 10), rfl⟩

/-- C9 witness: the range facts instantiated at a concrete invocation. -/
theorem c9_weight_normalization_witness :
    0 ≤ (203/5 : ℚ) ∧ (203/5 : ℚ) ≤ 100 ∧ ∃ n : ℤ, (203/5 : ℚ) = (n : ℚ) / 10 :=
  c9_weight_normalization.2 [] [ct_plain] "q1" (some { nationality := some 100 }) (203/5)
    (by decide!)

/-! ## C5 — senior-manager fallback -/

lemma foldl_inv {α β : Type} {P : α → Prop} (f : α → β → α) (l : List β) (b : α)
    (h0 : P b) (hstep : ∀ a x, x ∈ l → P a → P (f a x)) : P (l.foldl f b) := by
  induction l generalizing b with
  | nil => exact h0
  | cons x t ih =>
    rw [List.foldl_cons]
    exact ih (f b x) (hstep b x (List.mem_cons_self x t) h0)
      (fun a y hy hP => hstep a y (List.mem_cons_of_mem x hy) hP)

lemma main_ubo_entries_no_fallback (agg : List (String × ℚ)) (ctl : List String)
    (cs : List Contact) :
    ∀ e ∈ main_ubo_entries agg ctl cs, e.is_senior_manager_fallback = false := by
  unfold main_ubo_entries
  apply foldl_inv (P := fun st : List UboEntry × List String =>
    ∀ e ∈ st.1, e.is_senior_manager_fallback = false)
  · apply foldl_inv (P := fun st : List UboEntry × List String =>
      ∀ e ∈ st.1, e.is_senior_manager_fallback = false)
    · intro e he
      simp at he
    · intro a x _ hP e he
      unfold ubo_loop1_step at he
      by_cases h1 : x.1 ∈ a.2
      · rw [if_pos h1] at he
        exact hP e he
      · rw [if_neg h1] at he
        by_cases h2 : UBO_THRESHOLD ≤ x.2 ∨ x.1 ∈ ctl
        · rw [if_pos h2] at he
          rcases List.mem_append.mp he with h | h
          · exact hP e h
          · simp only [List.mem_singleton] at h
            subst h
            rfl
        · rw [if_neg h2] at he
          exact hP e he
  · intro a x _ hP e he
    unfold ubo_loop2_step at he
    by_cases h1 : x ∈ a.2
    · rw [if_pos h1] at he
      exact hP e he
    · rw [if_neg h1] at he
      rcases List.mem_append.mp he with h | h
      · exact hP e h
      · simp only [List.mem_singleton] at h
        subst h
        rfl

lemma sm_fallback_entry_length (cs : List Contact) (sid : String) :
    (sm_fallback_entry cs sid).length ≤ 1 := by
  unfold sm_fallback_entry
  cases lookup_contact cs sid with
  | none => simp
  | some c => by_cases h : c.contact_type = ContactType.individual <;> simp [h]

lemma fallback_entries_length (cs : List Contact) (ent : Contact) (sm : Option String) :
    (fallback_entries cs ent sm).length ≤ 1 := by
  unfold fallback_entries
  split_ifs
  · exact sm_fallback_entry_length cs (sm.getD "")
  · exact sm_fallback_entry_length cs (ent.senior_manager_contact_id.getD "")
  · simp

lemma fallback_entries_eq {cs : List Contact} {ent : Contact} {sm : Option String}
    {s : String} {c : Contact}
    (h_sm : (sm <|> ent.senior_manager_contact_id) = some s)
    (h_ne : s ≠ "") (h_c : lookup_contact cs s = some c)
    (h_ind : c.contact_type = ContactType.individual) :
    fallback_entries cs ent sm
      = [{ contact_id := s, name := c.name, effective_pct := 0,
           is_control := false, is_senior_manager_fallback := true }] := by
  cases sm with
  | some t =>
    have ht : t = s := by simpa using h_sm
    subst ht
    unfold fallback_entries truthy_present
    simp only [Option.getD_some]
    rw [if_pos (by simp [h_c, h_ne])]
    unfold sm_fallback_entry
    rw [h_c]
    simp [h_ind]
  | none =>
    have h2 : ent.senior_manager_contact_id = some s := by simpa using h_sm
    unfold fallback_entries truthy_present
    rw [h2]
    simp only [Option.getD_some]
    rw [if_neg (by simp), if_pos (by simp [h_c, h_ne])]
    unfold sm_fallback_entry
    rw [h_c]
    simp [h_ind]

lemma ubos_filter_fallback_le (main fb : List UboEntry)
    (hmain : ∀ e ∈ main, e.is_senior_manager_fallback = false)
    (hfb : fb.length ≤ 1) :
    ((main ++ (if main = [] then fb else [])).filter
      (·.is_senior_manager_fallback)).length ≤ 1 := by
  rw [List.filter_append]
  have h1 : main.filter (·.is_senior_manager_fallback) = [] :=
    List.filter_eq_nil_iff.mpr (fun e he => by simp [hmain e he])
  rw [h1, List.nil_append]
  split_ifs
  · exact le_trans (List.length_filter_le _ _) hfb
  · simp

/-- C5: when the two classification loops identify no UBO and the effective
senior-manager identifier (the explicit argument taking precedence over the
entity's stored field) names an individual in the loaded scope, the result
is exactly one fallback entry with effective percentage 0 and the fallback
flag set; and in every invocation whatsoever at most one fallback entry is
emitted. -/
theorem c5_senior_manager_fallback :
    (∀ (all_links : List OwnershipLink) (all_contacts : List Contact)
        (root : String) (sm : Option String) (s : String) (c ent : Contact)
        (r : ResolutionResult),
      lookup_contact (load_links_and_contacts all_links all_contacts root).2 root
          = some ent →
      main_ubo_entries
          (aggregate_effective (effective_ownership_paths
            (load_links_and_contacts all_links all_contacts root).1
            (load_links_and_contacts all_links all_contacts root).2 root))
          (control_ubos (load_links_and_contacts all_links all_contacts root).1
            (load_links_and_contacts all_links all_contacts root).2 root)
          (load_links_and_contacts all_links all_contacts root).2 = [] →
      (sm <|> ent.senior_manager_contact_id) = some s →
      s ≠ "" →
      lookup_contact (load_links_and_contacts all_links all_contacts root).2 s = some c →
      c.contact_type = ContactType.individual →
      resolve_ubos all_links all_contacts root sm = some r →
      r.ubos = [{ contact_id := s, name := c.name, effective_pct := 0,
                  is_control := false, is_senior_manager_fallback := true }])
    ∧ (∀ (all_links : List OwnershipLink) (all_contacts : List Contact)
        (root : String) (sm : Option String) (r : ResolutionResult),
        resolve_ubos all_links all_contacts root sm = some r →
        (r.ubos.filter (·.is_senior_manager_fallback)).length ≤ 1) := by
  constructor
  · intro AL AC root sm s c ent r h_ent h_main h_sm h_ne h_c h_ind hr
    simp only [resolve_ubos, h_ent] at hr
    cases hfc : find_cycles (load_links_and_contacts AL AC root).1
        ((load_links_and_contacts AL AC root).2.map (·.id)) with
    | none =>
      rw [hfc] at hr
      exact absurd hr (by simp)
    | some cycles =>
      rw [hfc] at hr
      simp only [Option.some.injEq] at hr
      subst hr
      rw [h_main]
      simp [fallback_entries_eq h_sm h_ne h_c h_ind]
  · intro AL AC root sm r hr
    cases h_ent : lookup_contact (load_links_and_contacts AL AC root).2 root with
    | none =>
      simp only [resolve_ubos, h_ent, Option.some.injEq] at hr
      subst hr
      simp
    | some ent =>
      simp only [resolve_ubos, h_ent] at hr
      cases hfc : find_cycles (load_links_and_contacts AL AC root).1
          ((load_links_and_contacts AL AC root).2.map (·.id)) with
      | none =>
        rw [hfc] at hr
        exact absurd hr (by simp)
      | some cycles =>
        rw [hfc] at hr
        simp only [Option.some.injEq] at hr
        subst hr
        exact ubos_filter_fallback_le _ _ (main_ubo_entries_no_fallback _ _ _)
          (fallback_entries_length _ _ _)

/-- C5 witness: the fallback scenario (no owner, stored senior manager M)
instantiating both conjuncts. -/
theorem c5_senior_manager_fallback_witness :
    ∃ r, resolve_ubos [ln_me_manages] [ct_entity, ct_manager] "E" none = some r
      ∧ r.ubos = [{ contact_id := "M", name := "Mgr", effective_pct := 0,
                    is_control := false, is_senior_manager_fallback := true }]
      ∧ (r.ubos.filter (·.is_senior_manager_fallback)).length ≤ 1 := by
  have hr : resolve_ubos [ln_me_manages] [ct_entity, ct_manager] "E" none
      = some ⟨[{ contact_id := "M", name := "Mgr", effective_pct := 0,
                 is_control := false, is_senior_manager_fallback := true }],
              [], [], ["Total ownership sums to 0.0%, not 100%"]⟩ := by decide!
  refine ⟨_, hr, ?_, ?_⟩
  · exact c5_senior_manager_fallback.1 [ln_me_manages] [ct_entity, ct_manager] "E" none
      "M" ct_manager ct_entity _ (by decide!) (by decide!) (by decide) (by decide)
      (by decide!) (by decide) hr
  · exact c5_senior_manager_fallback.2 [ln_me_manages] [ct_entity, ct_manager] "E" none _ hr

/-! ## C4 — threshold boundary -/

lemma list_lookup_mem {l : List (String × ℚ)} {k : String} {v : ℚ}
    (h : List.lookup k l = some v) : (k, v) ∈ l := by
  induction l with
  | nil => simp [List.lookup] at h
  | cons a t ih =>
    obtain ⟨k1, v1⟩ := a
    by_cases hk : k = k1
    · subst hk
      simp [List.lookup] at h
      subst h
      exact List.mem_cons_self _ _
    · rw [List.lookup] at h
      rw [show (k == k1) = false by simpa using hk] at h
      exact List.mem_cons_of_mem _ (ih h)

lemma nodup_lookup_of_mem {l : List (String × ℚ)} (hn : (l.map Prod.fst).Nodup)
    {k : String} {w : ℚ} (hm : (k, w) ∈ l) : List.lookup k l = some w := by
  induction l with
  | nil => cases hm
  | cons a t ih =>
    obtain ⟨k1, v1⟩ := a
    rcases List.mem_cons.mp hm with h | h
    · rw [Prod.mk.injEq] at h
      obtain ⟨h1, h2⟩ := h
      subst h1
      subst h2
      simp [List.lookup]
    · have hk : k ≠ k1 := by
        intro he
        subst he
        exact (List.nodup_cons.mp hn).1
          (List.mem_map.mpr ⟨(k, w), h, rfl⟩)
      rw [List.lookup]
      rw [show (k == k1) = false by simpa using hk]
      exact ih (List.nodup_cons.mp hn).2 h

lemma push_result_keys (r : List (String × List (List String × ℚ))) (k : String)
    (e : List String × ℚ) :
    (push_result r k e).map Prod.fst
      = if k ∈ r.map Prod.fst then r.map Prod.fst else r.map Prod.fst ++ [k] := by
  induction r with
  | nil => simp [push_result]
  | cons kv rest ih =>
    by_cases hk : kv.1 = k
    · simp [push_result, hk]
    · simp only [push_result, if_neg hk, List.map_cons, ih]
      have hiff : (k ∈ kv.1 :: rest.map Prod.fst) ↔ (k ∈ rest.map Prod.fst) := by
        constructor
        · intro h
          rcases List.mem_cons.mp h with h | h
          · exact absurd h.symm hk
          · exact h
        · exact List.mem_cons_of_mem _
      by_cases hm : k ∈ rest.map Prod.fst
      · simp [hm, hiff.mpr hm]
      · rw [if_neg hm, if_neg (fun hc => hm (hiff.mp hc))]
        simp

lemma push_result_keys_nodup {r : List (String × List (List String × ℚ))} {k : String}
    {e : List String × ℚ} (hn : (r.map Prod.fst).Nodup) :
    ((push_result r k e).map Prod.fst).Nodup := by
  rw [push_result_keys]
  split_ifs with hm
  · exact hn
  · exact List.Nodup.append hn (List.nodup_singleton k)
      (by simp [List.disjoint_left, hm])

lemma dfs_agg_keys_nodup (inc : String → List (String × ℚ)) (cs : List Contact) :
    ∀ (fuel : Nat) (node : String) (path : List String) (product : ℚ) (st : AggSt),
      (st.result.map Prod.fst).Nodup →
      (((dfs_agg inc cs fuel node path product st).result.map Prod.fst)).Nodup := by
  intro fuel
  induction fuel with
  | zero => intro node path product st h; exact h
  | succ f ih =>
    intro node path product st h
    unfold dfs_agg
    split_ifs with h1 h2 h3
    · exact h
    · exact h
    · apply foldl_inv (P := fun st : AggSt => (st.result.map Prod.fst).Nodup)
      · exact push_result_keys_nodup h
      · intro a x _ hP
        by_cases hp : x.1 ∈ path
        · rw [if_pos hp]
          exact hP
        · rw [if_neg hp]
          exact ih _ _ _ _ hP
    · apply foldl_inv (P := fun st : AggSt => (st.result.map Prod.fst).Nodup)
      · exact h
      · intro a x _ hP
        by_cases hp : x.1 ∈ path
        · rw [if_pos hp]
          exact hP
        · rw [if_neg hp]
          exact ih _ _ _ _ hP

lemma aggregate_keys_nodup (links : List OwnershipLink) (cs : List Contact)
    (root : String) :
    ((aggregate_effective (effective_ownership_paths links cs root)).map Prod.fst).Nodup := by
  have h : (aggregate_effective (effective_ownership_paths links cs root)).map Prod.fst
      = (effective_ownership_paths links cs root).map Prod.fst := by
    simp [aggregate_effective]
  rw [h]
  exact dfs_agg_keys_nodup (incoming_of links) cs (MAX_DEPTH + 1) root [] 100 ⟨[], []⟩
    (by simp)

lemma loop_seen_mono_1 (ctl : List String) (cs : List Contact) (p : String) :
    ∀ (l : List (String × ℚ)) (st : List UboEntry × List String),
      p ∈ st.2 → p ∈ (l.foldl (ubo_loop1_step ctl cs) st).2 := by
  intro l st h
  apply foldl_inv (P := fun st : List UboEntry × List String => p ∈ st.2) _ _ _ h
  intro a x _ hP
  unfold ubo_loop1_step
  split_ifs <;> simp [hP]

lemma loop_seen_mono_2 (agg : List (String × ℚ)) (cs : List Contact) (p : String) :
    ∀ (l : List String) (st : List UboEntry × List String),
      p ∈ st.2 → p ∈ (l.foldl (ubo_loop2_step agg cs) st).2 := by
  intro l st h
  apply foldl_inv (P := fun st : List UboEntry × List String => p ∈ st.2) _ _ _ h
  intro a x _ hP
  unfold ubo_loop2_step
  split_ifs <;> simp [hP]

lemma loop1_triggers (ctl : List String) (cs : List Contact) {p : String} {q : ℚ}
    (hq : UBO_THRESHOLD ≤ q) :
    ∀ (l : List (String × ℚ)) (st : List UboEntry × List String),
      (p, q) ∈ l → p ∈ (l.foldl (ubo_loop1_step ctl cs) st).2 := by
  intro l
  induction l with
  | nil => intro st h; cases h
  | cons x t ih =>
    intro st h
    rcases List.mem_cons.mp h with h | h
    · subst h
      rw [List.foldl_cons]
      apply loop_seen_mono_1
      unfold ubo_loop1_step
      by_cases h1 : p ∈ st.2
      · rw [if_pos h1]; exact h1
      · rw [if_neg h1, if_pos (Or.inl hq)]
        simp
    · rw [List.foldl_cons]
      exact ih _ h

lemma loops_inv (agg : List (String × ℚ)) (ctl : List String) (cs : List Contact) :
    ∀ x ∈ (ctl.foldl (ubo_loop2_step agg cs)
        (agg.foldl (ubo_loop1_step ctl cs) ([], []))).2,
      ∃ e ∈ (ctl.foldl (ubo_loop2_step agg cs)
        (agg.foldl (ubo_loop1_step ctl cs) ([], []))).1, e.contact_id = x := by
  apply foldl_inv (P := fun st : List UboEntry × List String =>
    ∀ x ∈ st.2, ∃ e ∈ st.1, e.contact_id = x)
  · apply foldl_inv (P := fun st : List UboEntry × List String =>
      ∀ x ∈ st.2, ∃ e ∈ st.1, e.contact_id = x)
    · intro x hx
      simp at hx
    · intro a y _ hP x hx
      unfold ubo_loop1_step at hx ⊢
      by_cases h1 : y.1 ∈ a.2
      · rw [if_pos h1] at hx ⊢
        exact hP x hx
      · rw [if_neg h1] at hx ⊢
        by_cases h2 : UBO_THRESHOLD ≤ y.2 ∨ y.1 ∈ ctl
        · rw [if_pos h2] at hx ⊢
          rcases List.mem_append.mp hx with h | h
          · obtain ⟨e, he, hid⟩ := hP x h
            exact ⟨e, List.mem_append_left _ he, hid⟩
          · simp only [List.mem_singleton] at h
            subst h
            exact ⟨_, List.mem_append_right _ (List.mem_singleton_self _), rfl⟩
        · rw [if_neg h2] at hx ⊢
          exact hP x hx
  · intro a y _ hP x hx
    unfold ubo_loop2_step at hx ⊢
    by_cases h1 : y ∈ a.2
    · rw [if_pos h1] at hx ⊢
      exact hP x hx
    · rw [if_neg h1] at hx ⊢
      rcases List.mem_append.mp hx with h | h
      · obtain ⟨e, he, hid⟩ := hP x h
        exact ⟨e, List.mem_append_left _ he, hid⟩
      · simp only [List.mem_singleton] at h
        subst h
        exact ⟨_, List.mem_append_right _ (List.mem_singleton_self _), rfl⟩

/-- A person aggregated at or above the threshold appears in the main list. -/
lemma main_ubo_entries_mem {agg : List (String × ℚ)} {ctl : List String}
    {cs : List Contact} {p : String} {q : ℚ}
    (hm : (p, q) ∈ agg) (hq : UBO_THRESHOLD ≤ q) :
    ∃ e ∈ main_ubo_entries agg ctl cs, e.contact_id = p := by
  unfold main_ubo_entries
  apply loops_inv
  apply loop_seen_mono_2
  exact loop1_triggers ctl cs hq agg ([], []) hm

/-- Everything in the main list got there through the threshold test or the
control set. -/
lemma main_ubo_entries_sound (agg : List (String × ℚ)) (ctl : List String)
    (cs : List Contact) :
    ∀ e ∈ main_ubo_entries agg ctl cs,
      e.contact_id ∈ ctl ∨ ∃ q, (e.contact_id, q) ∈ agg ∧ UBO_THRESHOLD ≤ q := by
  unfold main_ubo_entries
  apply foldl_inv (P := fun st : List UboEntry × List String =>
    ∀ e ∈ st.1, e.contact_id ∈ ctl ∨ ∃ q, (e.contact_id, q) ∈ agg ∧ UBO_THRESHOLD ≤ q)
  · apply foldl_inv (P := fun st : List UboEntry × List String =>
      ∀ e ∈ st.1, e.contact_id ∈ ctl ∨ ∃ q, (e.contact_id, q) ∈ agg ∧ UBO_THRESHOLD ≤ q)
    · intro e he
      simp at he
    · intro a x hx hP e he
      unfold ubo_loop1_step at he
      by_cases h1 : x.1 ∈ a.2
      · rw [if_pos h1] at he
        exact hP e he
      · rw [if_neg h1] at he
        by_cases h2 : UBO_THRESHOLD ≤ x.2 ∨ x.1 ∈ ctl
        · rw [if_pos h2] at he
          rcases List.mem_append.mp he with h | h
          · exact hP e h
          · simp only [List.mem_singleton] at h
            subst h
            rcases h2 with h2 | h2
            · exact Or.inr ⟨x.2, by simpa using hx, h2⟩
            · exact Or.inl h2
        · rw [if_neg h2] at he
          exact hP e he
  · intro a x hx hP e he
    unfold ubo_loop2_step at he
    by_cases h1 : x ∈ a.2
    · rw [if_pos h1] at he
      exact hP e he
    · rw [if_neg h1] at he
      rcases List.mem_append.mp he with h | h
      · exact hP e h
      · simp only [List.mem_singleton] at h
        subst h
        exact Or.inl hx

lemma fallback_entries_none {cs : List Contact} {ent : Contact}
    (h : ent.senior_manager_contact_id = none) :
    fallback_entries cs ent none = [] := by
  unfold fallback_entries truthy_present
  rw [h]
  simp

/-- C4: an individual whose aggregated effective ownership is exactly 25.00
is in the UBO list; one at exactly 24.99 with no non-nominee control or
director edge into the root (and no senior-manager fallback in play) is
not. -/
theorem c4_threshold_boundary :
    (∀ (all_links : List OwnershipLink) (all_contacts : List Contact)
        (root : String) (sm : Option String) (p : String) (ent : Contact)
        (r : ResolutionResult),
      lookup_contact (load_links_and_contacts all_links all_contacts root).2 root
          = some ent →
      List.lookup p (aggregate_effective (effective_ownership_paths
          (load_links_and_contacts all_links all_contacts root).1
          (load_links_and_contacts all_links all_contacts root).2 root)) = some 25 →
      resolve_ubos all_links all_contacts root sm = some r →
      ∃ e ∈ r.ubos, e.contact_id = p)
    ∧ (∀ (all_links : List OwnershipLink) (all_contacts : List Contact)
        (root : String) (p : String) (ent : Contact) (r : ResolutionResult),
      lookup_contact (load_links_and_contacts all_links all_contacts root).2 root
          = some ent →
      ent.senior_manager_contact_id = none →
      List.lookup p (aggregate_effective (effective_ownership_paths
          (load_links_and_contacts all_links all_contacts root).1
          (load_links_and_contacts all_links all_contacts root).2 root))
        = some (2499/100) →
      p ∉ control_ubos (load_links_and_contacts all_links all_contacts root).1
          (load_links_and_contacts all_links all_contacts root).2 root →
      resolve_ubos all_links all_contacts root none = some r →
      ∀ e ∈ r.ubos, e.contact_id ≠ p) := by
  constructor
  · intro AL AC root sm p ent r h_ent h_agg hr
    simp only [resolve_ubos, h_ent] at hr
    cases hfc : find_cycles (load_links_and_contacts AL AC root).1
        ((load_links_and_contacts AL AC root).2.map (·.id)) with
    | none =>
      rw [hfc] at hr
      exact absurd hr (by simp)
    | some cycles =>
      rw [hfc] at hr
      simp only [Option.some.injEq] at hr
      subst hr
      obtain ⟨e, he, hid⟩ := main_ubo_entries_mem (list_lookup_mem h_agg) (le_refl 25)
      exact ⟨e, List.mem_append_left _ he, hid⟩
  · intro AL AC root p ent r h_ent h_sm h_agg h_ctl hr
    simp only [resolve_ubos, h_ent] at hr
    cases hfc : find_cycles (load_links_and_contacts AL AC root).1
        ((load_links_and_contacts AL AC root).2.map (·.id)) with
    | none =>
      rw [hfc] at hr
      exact absurd hr (by simp)
    | some cycles =>
      rw [hfc] at hr
      simp only [Option.some.injEq] at hr
      subst hr
      intro e he hid
      have he' : e ∈ (main_ubo_entries
          (aggregate_effective (effective_ownership_paths
            (load_links_and_contacts AL AC root).1
            (load_links_and_contacts AL AC root).2 root))
          (control_ubos (load_links_and_contacts AL AC root).1
            (load_links_and_contacts AL AC root).2 root)
          (load_links_and_contacts AL AC root).2) := by
        rcases List.mem_append.mp he with h | h
        · exact h
        · rw [fallback_entries_none h_sm] at h
          split_ifs at h <;> simp at h
      rcases main_ubo_entries_sound _ _ _ e he' with h | ⟨q, hq_mem, hq_ge⟩
      · rw [hid] at h
        exact h_ctl h
      · rw [hid] at hq_mem
        have := nodup_lookup_of_mem (aggregate_keys_nodup
          (load_links_and_contacts AL AC root).1
          (load_links_and_contacts AL AC root).2 root) hq_mem
        rw [h_agg] at this
        have hq : q = 2499/100 := by
          simpa using this.symm
        rw [hq] at hq_ge
        have : ¬ (UBO_THRESHOLD ≤ 2499/100) := by
          unfold UBO_THRESHOLD
          norm_num
        exact this hq_ge

/-- C4 witness: the two boundary scenarios at concrete graphs (P owning
exactly 25% and exactly 24.99% of the root R). -/
theorem c4_threshold_boundary_witness :
    (∃ e ∈ (resolve_ubos [ln_p_25] [ct_r, ct_p] "R" none).getD ⟨[], [], [], []⟩
        |>.ubos, e.contact_id = "P")
    ∧ (∀ e ∈ (resolve_ubos [ln_p_2499] [ct_r, ct_p] "R" none).getD ⟨[], [], [], []⟩
        |>.ubos, e.contact_id ≠ "P") := by
  constructor
  · have hr : resolve_ubos [ln_p_25] [ct_r, ct_p] "R" none
        = some ⟨[{ contact_id := "P", name := "P Ind", effective_pct := 25,
                   is_control := false, is_senior_manager_fallback := false }],
                [("P", 25)], [],
                ["Total ownership sums to 25.0%, not 100%"]⟩ := by decide!
    have h := c4_threshold_boundary.1 [ln_p_25] [ct_r, ct_p] "R" none "P" ct_r _
      (by decide!) (by decide!) hr
    rw [hr]
    exact h
  · have hr : resolve_ubos [ln_p_2499] [ct_r, ct_p] "R" none
        = some ⟨[], [("P", 2499/100)], [],
                ["Total ownership sums to 25.0%, not 100%"]⟩ := by decide!
    have h := c4_threshold_boundary.2 [ln_p_2499] [ct_r, ct_p] "R" "P" ct_r _
      (by decide!) (by decide) (by decide!) (by decide!) hr
    rw [hr]
    exact h

/-! ## C6 — termination and cycle discovery of `_find_cycles` -/

/-- The number of graph nodes not yet on the current path: the measure that
bounds the cycle DFS recursion depth. -/
def undisc (allN p : List String) : Nat :=
  (allN.filter (fun n => decide (¬ n ∈ p))).length

lemma undisc_append {allN p : List String} {u : String}
    (hN : allN.Nodup) (hu : u ∈ allN) (hp : ¬ u ∈ p) :
    undisc allN (p ++ [u]) + 1 = undisc allN p := by
  unfold undisc
  have h1 : allN.filter (fun n => decide (¬ n ∈ p ++ [u]))
      = (allN.filter (fun n => decide (¬ n ∈ p))).filter (fun n => decide (¬ n = u)) := by
    rw [List.filter_filter]
    apply List.filter_congr
    intro x _
    simp [List.mem_append, not_or, and_comm]
  rw [h1]
  have h2 : (allN.filter (fun n => decide (¬ n ∈ p))).Nodup := hN.filter _
  have h3 : u ∈ allN.filter (fun n => decide (¬ n ∈ p)) :=
    List.mem_filter.mpr ⟨hu, by simpa using hp⟩
  have h4 : (allN.filter (fun n => decide (¬ n ∈ p))).filter (fun n => decide (¬ n = u))
      = (allN.filter (fun n => decide (¬ n ∈ p))).erase u := by
    rw [h2.erase_eq_filter]
    apply List.filter_congr
    intro x _
    by_cases hxu : x = u
    · subst hxu
      simp
    · simp [hxu, bne, Ne.symm hxu]
  rw [h4, List.length_erase_of_mem h3]
  have h5 : 0 < (allN.filter (fun n => decide (¬ n ∈ p))).length :=
    List.length_pos.mpr (List.ne_nil_of_mem h3)
  omega

lemma undisc_pos {allN p : List String} {u : String} (hu : u ∈ allN) (hp : ¬ u ∈ p) :
    1 ≤ undisc allN p := by
  unfold undisc
  have : u ∈ allN.filter (fun n => decide (¬ n ∈ p)) :=
    List.mem_filter.mpr ⟨hu, by simpa using hp⟩
  exact List.length_pos.mpr (List.ne_nil_of_mem this)

/-- Fuel sufficiency for the inner DFS: with more fuel than undiscovered
nodes, `cycle_dfs` always returns `some` (it terminates). -/
lemma cycle_dfs_isSome {out : String → List String} {allN : List String}
    (hclo : ∀ u, ∀ t ∈ out u, t ∈ allN) (hN : allN.Nodup) :
    ∀ (f : Nat) (p : List String) (cid : String) (acc : List (List String)),
      cid ∈ allN → undisc allN p < f →
      ∃ r, cycle_dfs out f p cid acc = some r := by
  intro f
  induction f with
  | zero => intro p cid acc _ hf; omega
  | succ g ih =>
    intro p cid acc hcid hf
    unfold cycle_dfs
    by_cases hp : cid ∈ p
    · rw [if_pos hp]
      exact ⟨_, rfl⟩
    · rw [if_neg hp]
      have hstep : undisc allN (p ++ [cid]) < g := by
        have h1 := undisc_append hN hcid hp
        have h2 := undisc_pos hcid hp
        omega
      have hfold : ∀ (ts : List String), (∀ t ∈ ts, t ∈ allN) →
          ∀ a : List (List String),
          ∃ r, ts.foldl
            (fun acc t =>
              match acc with
              | none => none
              | some cycles' => cycle_dfs out g (p ++ [cid]) t cycles')
            (some a) = some r := by
        intro ts
        induction ts with
        | nil => intro _ a; exact ⟨a, rfl⟩
        | cons t ts' iht =>
          intro hts a
          obtain ⟨a1, ha1⟩ := ih (p ++ [cid]) t a (hts t (List.mem_cons_self t ts')) hstep
          obtain ⟨r, hrr⟩ := iht (fun x hx => hts x (List.mem_cons_of_mem t hx)) a1
          refine ⟨r, ?_⟩
          have hred : (t :: ts').foldl
              (fun acc t =>
                match acc with
                | none => none
                | some cycles' => cycle_dfs out g (p ++ [cid]) t cycles')
              (some a)
            = ts'.foldl
              (fun acc t =>
                match acc with
                | none => none
                | some cycles' => cycle_dfs out g (p ++ [cid]) t cycles')
              (cycle_dfs out g (p ++ [cid]) t a) := rfl
          rw [hred, ha1]
          exact hrr
      exact hfold (out cid) (fun t ht => hclo cid t ht) acc

lemma cycle_fold_none {out : String → List String} {f : Nat} {p : List String} :
    ∀ ts : List String,
      ts.foldl
        (fun acc t =>
          match acc with
          | none => none
          | some cycles' => cycle_dfs out f p t cycles')
        (none : Option (List (List String))) = none := by
  intro ts
  induction ts with
  | nil => rfl
  | cons t ts' ih => rw [List.foldl_cons]; exact ih

/-- Monotonicity: `cycle_dfs` only appends to its accumulator. -/
lemma cycle_dfs_mono {out : String → List String} :
    ∀ (f : Nat) (p : List String) (cid : String) (acc r : List (List String)),
      cycle_dfs out f p cid acc = some r → ∃ t, r = acc ++ t := by
  intro f
  induction f with
  | zero => intro p cid acc r h; cases h
  | succ g ih =>
    intro p cid acc r h
    unfold cycle_dfs at h
    by_cases hp : cid ∈ p
    · rw [if_pos hp] at h
      simp only [Option.some.injEq] at h
      split_ifs at h
      · exact ⟨_, h.symm⟩
      · exact ⟨[], by rw [← h, List.append_nil]⟩
    · rw [if_neg hp] at h
      have hfold : ∀ (ts : List String) (a r : List (List String)),
          ts.foldl
            (fun acc t =>
              match acc with
              | none => none
              | some cycles' => cycle_dfs out g (p ++ [cid]) t cycles')
            (some a) = some r → ∃ t, r = a ++ t := by
        intro ts
        induction ts with
        | nil =>
          intro a r hh
          simp only [List.foldl_nil, Option.some.injEq] at hh
          exact ⟨[], by rw [← hh, List.append_nil]⟩
        | cons t ts' iht =>
          intro a r hh
          have hred : (t :: ts').foldl
              (fun acc t =>
                match acc with
                | none => none
                | some cycles' => cycle_dfs out g (p ++ [cid]) t cycles')
              (some a)
            = ts'.foldl
              (fun acc t =>
                match acc with
                | none => none
                | some cycles' => cycle_dfs out g (p ++ [cid]) t cycles')
              (cycle_dfs out g (p ++ [cid]) t a) := rfl
          rw [hred] at hh
          cases hstep : cycle_dfs out g (p ++ [cid]) t a with
          | none =>
            rw [hstep] at hh
            rw [cycle_fold_none] at hh
            cases hh
          | some a1 =>
            rw [hstep] at hh
            obtain ⟨t1, ht1⟩ := ih (p ++ [cid]) t a a1 hstep
            obtain ⟨t2, ht2⟩ := iht a1 r hh
            exact ⟨t1 ++ t2, by rw [ht2, ht1, List.append_assoc]⟩
      exact hfold (out cid) acc r h

/-- A walk along `out` edges: `path_edges out u l` holds when the successive
elements of `u :: l` are joined by edges. -/
def path_edges (out : String → List String) : String → List String → Bool
  | _, [] => true
  | u, x :: xs => decide (x ∈ out u) && path_edges out x xs

lemma dedup_ids_sound :
    ∀ (l acc : List String),
      (l.foldl (fun acc x => if x ∈ acc then acc else acc ++ [x]) acc).Nodup
        ∧ (∀ y, y ∈ l ∨ y ∈ acc → y ∈ l.foldl
            (fun acc x => if x ∈ acc then acc else acc ++ [x]) acc)
        ∨ ¬ acc.Nodup := by
  intro l
  induction l with
  | nil =>
    intro acc
    by_cases h : acc.Nodup
    · refine Or.inl ⟨h, ?_⟩
      intro y hy
      rcases hy with hy | hy
      · cases hy
      · simpa using hy
    · exact Or.inr h
  | cons x t ih =>
    intro acc
    by_cases h : acc.Nodup
    · rw [List.foldl_cons]
      by_cases hx : x ∈ acc
      · rw [if_pos hx]
        rcases ih acc with ⟨h1, h2⟩ | h1
        · refine Or.inl ⟨h1, fun y hy => ?_⟩
          rcases hy with hy | hy
          · rcases List.mem_cons.mp hy with hy | hy
            · subst hy
              exact h2 y (Or.inr hx)
            · exact h2 y (Or.inl hy)
          · exact h2 y (Or.inr hy)
        · exact absurd h h1
      · rw [if_neg hx]
        have hacc : (acc ++ [x]).Nodup :=
          List.Nodup.append h (List.nodup_singleton x) (by simp [List.disjoint_left, hx])
        rcases ih (acc ++ [x]) with ⟨h1, h2⟩ | h1
        · refine Or.inl ⟨h1, fun y hy => ?_⟩
          rcases hy with hy | hy
          · rcases List.mem_cons.mp hy with hy | hy
            · subst hy
              exact h2 y (Or.inr (List.mem_append_right _ (List.mem_singleton_self _)))
            · exact h2 y (Or.inl hy)
          · exact h2 y (Or.inr (List.mem_append_left _ hy))
        · exact absurd hacc h1
    · exact Or.inr h

lemma dedup_ids_nodup (l : List String) : (dedup_ids l).Nodup := by
  rcases dedup_ids_sound l [] with ⟨h1, _⟩ | h1
  · exact h1
  · exact absurd List.nodup_nil h1

lemma mem_dedup_ids {l : List String} {y : String} (h : y ∈ l) : y ∈ dedup_ids l := by
  rcases dedup_ids_sound l [] with ⟨_, h2⟩ | h1
  · exact h2 y (Or.inl h)
  · exact absurd List.nodup_nil h1

lemma graph_nodes_nodup (links : List OwnershipLink) (ids : List String) :
    (graph_nodes links ids).Nodup := dedup_ids_nodup _

lemma mem_graph_nodes_of_ids {links : List OwnershipLink} {ids : List String} {c : String}
    (h : c ∈ ids) : c ∈ graph_nodes links ids :=
  mem_dedup_ids (List.mem_append_left _ h)

lemma mem_endpoint_list {links : List OwnershipLink} {l : OwnershipLink}
    (h : l ∈ links) :
    l.owner_contact_id ∈ links.foldr
        (fun l acc => l.owner_contact_id :: l.owned_contact_id :: acc) []
      ∧ l.owned_contact_id ∈ links.foldr
        (fun l acc => l.owner_contact_id :: l.owned_contact_id :: acc) [] := by
  induction links with
  | nil => cases h
  | cons a t ih =>
    rcases List.mem_cons.mp h with h | h
    · subst h
      simp [List.foldr_cons]
    · obtain ⟨h1, h2⟩ := ih h
      simp only [List.foldr_cons]
      exact ⟨List.mem_cons_of_mem _ (List.mem_cons_of_mem _ h1),
        List.mem_cons_of_mem _ (List.mem_cons_of_mem _ h2)⟩

lemma out_edges_closure (links : List OwnershipLink) (ids : List String) :
    ∀ u, ∀ t ∈ out_edges_of links u, t ∈ graph_nodes links ids := by
  intro u t ht
  unfold out_edges_of at ht
  obtain ⟨l, hl, hlt⟩ := List.mem_map.mp ht
  have hlm : l ∈ links := List.mem_of_mem_filter hl
  subst hlt
  exact mem_dedup_ids (List.mem_append_right _ (mem_endpoint_list hlm).2)

lemma undisc_nil (allN : List String) : undisc allN [] = allN.length := by
  unfold undisc
  simp

/-- Monotonicity through the DFS children fold. -/
lemma cycle_fold_mono {out : String → List String} {g : Nat} {p' : List String} :
    ∀ (ts : List String) (a r : List (List String)),
      ts.foldl
        (fun acc t =>
          match acc with
          | none => none
          | some cycles' => cycle_dfs out g p' t cycles')
        (some a) = some r → ∃ t, r = a ++ t := by
  intro ts
  induction ts with
  | nil =>
    intro a r hh
    simp only [List.foldl_nil, Option.some.injEq] at hh
    exact ⟨[], by rw [← hh, List.append_nil]⟩
  | cons t ts' ih =>
    intro a r hh
    have hred : (t :: ts').foldl
        (fun acc t =>
          match acc with
          | none => none
          | some cycles' => cycle_dfs out g p' t cycles')
        (some a)
      = ts'.foldl
        (fun acc t =>
          match acc with
          | none => none
          | some cycles' => cycle_dfs out g p' t cycles')
        (cycle_dfs out g p' t a) := rfl
    rw [hred] at hh
    cases hstep : cycle_dfs out g p' t a with
    | none =>
      rw [hstep] at hh
      rw [cycle_fold_none] at hh
      cases hh
    | some a1 =>
      rw [hstep] at hh
      obtain ⟨t1, ht1⟩ := cycle_dfs_mono g p' t a a1 hstep
      obtain ⟨t2, ht2⟩ := ih a1 r hh
      exact ⟨t1 ++ t2, by rw [ht2, ht1, List.append_assoc]⟩

/-- If some child of the fold always records the target cycle, the fold's
result contains it. -/
lemma cycle_fold_finds {out : String → List String} {allN : List String}
    (hclo : ∀ u, ∀ t ∈ out u, t ∈ allN) (hN : allN.Nodup)
    {g : Nat} {p' : List String} {x : String} {c : List String} :
    ∀ (ts : List String) (a r : List (List String)),
      (∀ t ∈ ts, t ∈ allN) →
      undisc allN p' < g →
      x ∈ ts →
      (∀ (b rr : List (List String)), cycle_dfs out g p' x b = some rr → c ∈ rr) →
      ts.foldl
        (fun acc t =>
          match acc with
          | none => none
          | some cycles' => cycle_dfs out g p' t cycles')
        (some a) = some r →
      c ∈ r := by
  intro ts
  induction ts with
  | nil => intro a r _ _ hx; cases hx
  | cons t ts' ih =>
    intro a r hts hfuel hx hrec hh
    have hred : (t :: ts').foldl
        (fun acc t =>
          match acc with
          | none => none
          | some cycles' => cycle_dfs out g p' t cycles')
        (some a)
      = ts'.foldl
        (fun acc t =>
          match acc with
          | none => none
          | some cycles' => cycle_dfs out g p' t cycles')
        (cycle_dfs out g p' t a) := rfl
    rw [hred] at hh
    by_cases hteq : t = x
    · subst hteq
      cases hstep : cycle_dfs out g p' t a with
      | none =>
        rw [hstep] at hh
        rw [cycle_fold_none] at hh
        cases hh
      | some a1 =>
        rw [hstep] at hh
        have hc : c ∈ a1 := hrec a a1 hstep
        obtain ⟨t2, ht2⟩ := cycle_fold_mono ts' a1 r hh
        rw [ht2]
        exact List.mem_append_left _ hc
    · cases hstep : cycle_dfs out g p' t a with
      | none =>
        rw [hstep] at hh
        rw [cycle_fold_none] at hh
        cases hh
      | some a1 =>
        rw [hstep] at hh
        have hx' : x ∈ ts' := by
          rcases List.mem_cons.mp hx with h | h
          · exact absurd h.symm hteq
          · exact h
        exact ih a1 r (fun y hy => hts y (List.mem_cons_of_mem t hy)) hfuel hx' hrec hh

/-- Walking a simple cycle, the DFS records exactly the rotation that starts
at the DFS start node. -/
lemma cycle_dfs_records {out : String → List String} {allN : List String}
    (hclo : ∀ u, ∀ t ∈ out u, t ∈ allN) (hN : allN.Nodup) (v1 : String) (vs : List String) :
    ∀ (rest p : List String) (u : String) (f : Nat) (acc r : List (List String)),
      p ++ u :: rest = v1 :: vs →
      path_edges out u (rest ++ [v1]) = true →
      (v1 :: vs).Nodup →
      u ∈ allN →
      undisc allN p < f →
      cycle_dfs out f p u acc = some r →
      (v1 :: vs) ++ [v1] ∈ r := by
  intro rest
  induction rest with
  | nil =>
    intro p u f acc r hceq hpe hnd hu hf hr
    have hnd' : (p ++ u :: ([] : List String)).Nodup := by rw [hceq]; exact hnd
    have hp : ¬ u ∈ p := by
      intro hup
      have := (List.nodup_append.mp hnd').2.2
      exact this hup (List.mem_cons_self u [])
    cases f with
    | zero => omega
    | succ g =>
      unfold cycle_dfs at hr
      rw [if_neg hp] at hr
      have hfold_fuel : undisc allN (p ++ [u]) < g := by
        have h1 := undisc_append hN hu hp
        have h2 := undisc_pos hu hp
        omega
      have hv1out : v1 ∈ out u := by
        simp only [path_edges, List.nil_append, Bool.and_eq_true, decide_eq_true_eq] at hpe
        exact hpe.1
      have hv1mem : v1 ∈ p ++ [u] := by
        have : p ++ [u] = v1 :: vs := by simpa using hceq
        rw [this]
        exact List.mem_cons_self v1 vs
      refine cycle_fold_finds hclo hN (out u) acc r (fun t ht => hclo u t ht)
        hfold_fuel hv1out ?_ hr
      intro b rr h1
      cases g with
      | zero => cases h1
      | succ g2 =>
        unfold cycle_dfs at h1
        rw [if_pos hv1mem] at h1
        simp only [Option.some.injEq] at h1
        subst h1
        have hpu : p ++ [u] = v1 :: vs := by simpa using hceq
        rw [hpu]
        have hidx : (v1 :: vs).indexOf v1 = 0 := List.indexOf_cons_self v1 vs
        rw [hidx]
        simp only [List.drop_zero]
        have hlen : 1 < ((v1 :: vs) ++ [v1]).length := by
          simp
        rw [if_pos hlen]
        exact List.mem_append_right _ (List.mem_singleton_self _)
  | cons x rest' ih =>
    intro p u f acc r hceq hpe hnd hu hf hr
    have hnd' : (p ++ u :: x :: rest').Nodup := by rw [hceq]; exact hnd
    have hp : ¬ u ∈ p := by
      intro hup
      have := (List.nodup_append.mp hnd').2.2
      exact this hup (List.mem_cons_self u _)
    cases f with
    | zero => omega
    | succ g =>
      unfold cycle_dfs at hr
      rw [if_neg hp] at hr
      have hfold_fuel : undisc allN (p ++ [u]) < g := by
        have h1 := undisc_append hN hu hp
        have h2 := undisc_pos hu hp
        omega
      have hpe' : (x ∈ out u) ∧ path_edges out x (rest' ++ [v1]) = true := by
        simp only [path_edges, List.cons_append, Bool.and_eq_true, decide_eq_true_eq] at hpe
        exact hpe
      refine cycle_fold_finds hclo hN (out u) acc r (fun t ht => hclo u t ht)
        hfold_fuel hpe'.1 ?_ hr
      intro b rr h1
      refine ih (p ++ [u]) x g b rr ?_ hpe'.2 hnd (hclo u x hpe'.1) hfold_fuel h1
      rw [List.append_assoc]
      simpa using hceq

lemma find_cycles_go_mono {out : String → List String} {F : Nat} :
    ∀ (ids : List String) (acc r : List (List String)),
      find_cycles_go out F ids acc = some r → ∃ t, r = acc ++ t := by
  intro ids
  induction ids with
  | nil =>
    intro acc r hh
    simp only [find_cycles_go, Option.some.injEq] at hh
    exact ⟨[], by rw [← hh, List.append_nil]⟩
  | cons c ids' ih =>
    intro acc r hh
    unfold find_cycles_go at hh
    cases hstep : cycle_dfs out F [] c acc with
    | none =>
      rw [hstep] at hh
      cases hh
    | some a1 =>
      rw [hstep] at hh
      obtain ⟨t1, ht1⟩ := cycle_dfs_mono F [] c acc a1 hstep
      obtain ⟨t2, ht2⟩ := ih a1 r hh
      exact ⟨t1 ++ t2, by rw [ht2, ht1, List.append_assoc]⟩

lemma find_cycles_go_isSome {out : String → List String} {allN : List String}
    (hclo : ∀ u, ∀ t ∈ out u, t ∈ allN) (hN : allN.Nodup) {F : Nat}
    (hF : allN.length < F) :
    ∀ (ids : List String) (acc : List (List String)),
      (∀ c ∈ ids, c ∈ allN) →
      ∃ r, find_cycles_go out F ids acc = some r := by
  intro ids
  induction ids with
  | nil => intro acc _; exact ⟨acc, rfl⟩
  | cons c ids' ih =>
    intro acc hids
    obtain ⟨a1, ha1⟩ := cycle_dfs_isSome hclo hN F [] c acc
      (hids c (List.mem_cons_self c ids')) (by rw [undisc_nil]; exact hF)
    obtain ⟨r, hr⟩ := ih a1 (fun y hy => hids y (List.mem_cons_of_mem c hy))
    refine ⟨r, ?_⟩
    unfold find_cycles_go
    rw [ha1]
    exact hr

lemma find_cycles_go_finds {out : String → List String} {allN : List String}
    (hclo : ∀ u, ∀ t ∈ out u, t ∈ allN) (hN : allN.Nodup) {F : Nat}
    (hF : allN.length < F) {v1 : String} {vs : List String}
    (hpe : path_edges out v1 (vs ++ [v1]) = true) (hnd : (v1 :: vs).Nodup)
    (hv1 : v1 ∈ allN) :
    ∀ (ids : List String) (acc r : List (List String)),
      v1 ∈ ids →
      find_cycles_go out F ids acc = some r →
      (v1 :: vs) ++ [v1] ∈ r := by
  intro ids
  induction ids with
  | nil => intro acc r hx; cases hx
  | cons c ids' ih =>
    intro acc r hx hh
    unfold find_cycles_go at hh
    cases hstep : cycle_dfs out F [] c acc with
    | none =>
      rw [hstep] at hh
      cases hh
    | some a1 =>
      rw [hstep] at hh
      by_cases hc : c = v1
      · rw [hc] at hstep
        have hmem : (v1 :: vs) ++ [v1] ∈ a1 :=
          cycle_dfs_records hclo hN v1 vs vs [] v1 F acc a1 rfl hpe hnd hv1
            (by rw [undisc_nil]; exact hF) hstep
        obtain ⟨t2, ht2⟩ := find_cycles_go_mono ids' a1 r hh
        rw [ht2]
        exact List.mem_append_left _ hmem
      · rcases List.mem_cons.mp hx with h | h
        · exact absurd h.symm hc
        · exact ih a1 r h hh

/-- For every input, `find_cycles` terminates with a result. -/
lemma find_cycles_isSome (links : List OwnershipLink) (contact_ids : List String) :
    ∃ cs, find_cycles links contact_ids = some cs := by
  unfold find_cycles
  exact find_cycles_go_isSome (out_edges_closure links contact_ids)
    (graph_nodes_nodup links contact_ids) (by omega) contact_ids []
    (fun c hc => mem_graph_nodes_of_ids hc)

/-- C6: the cycle detector terminates on every input; on a graph containing
a directed simple cycle of length ≥ 2 through a contact id it returns a
non-empty cycle listing exactly those node ids (closed back to the start);
and `resolve_ubos` — which runs the cycle detector, the Aggregator and the
Classifier — returns a value on every input, cyclic graphs included. -/
theorem c6_cycle_termination :
    (∀ (links : List OwnershipLink) (contact_ids : List String),
      ∃ cs, find_cycles links contact_ids = some cs)
    ∧ (∀ (links : List OwnershipLink) (contact_ids : List String) (v1 : String)
        (vs : List String),
        vs ≠ [] →
        (v1 :: vs).Nodup →
        path_edges (out_edges_of links) v1 (vs ++ [v1]) = true →
        v1 ∈ contact_ids →
        ∃ cs, find_cycles links contact_ids = some cs
          ∧ (v1 :: vs) ++ [v1] ∈ cs ∧ ((v1 :: vs) ++ [v1] : List String) ≠ [])
    ∧ (∀ (all_links : List OwnershipLink) (all_contacts : List Contact) (root : String)
        (sm : Option String), (resolve_ubos all_links all_contacts root sm).isSome = true) := by
  refine ⟨find_cycles_isSome, ?_, ?_⟩
  · intro links contact_ids v1 vs _ hnd hpe hv1
    obtain ⟨cs, hcs⟩ := find_cycles_isSome links contact_ids
    refine ⟨cs, hcs, ?_, by simp⟩
    unfold find_cycles at hcs
    exact find_cycles_go_finds (out_edges_closure links contact_ids)
      (graph_nodes_nodup links contact_ids) (by omega) hpe hnd
      (mem_graph_nodes_of_ids hv1) contact_ids [] cs hv1 hcs
  · intro AL AC root sm
    cases h_ent : lookup_contact (load_links_and_contacts AL AC root).2 root with
    | none => simp [resolve_ubos, h_ent]
    | some ent =>
      obtain ⟨cs, hcs⟩ := find_cycles_isSome (load_links_and_contacts AL AC root).1
        ((load_links_and_contacts AL AC root).2.map (·.id))
      simp [resolve_ubos, h_ent, hcs]

/-- C6 witness: the two-node ownership cycle a → b → a. -/
theorem c6_cycle_termination_witness :
    (∃ cs, find_cycles [ln_ab, ln_ba] ["a", "b"] = some cs
      ∧ (["a", "b"] ++ ["a"] : List String) ∈ cs
      ∧ ((["a", "b"] ++ ["a"] : List String) ≠ []))
    ∧ (resolve_ubos [ln_ab, ln_ba] [] "a" none).isSome = true :=
  ⟨c6_cycle_termination.2.1 [ln_ab, ln_ba] ["a", "b"] "a" ["b"] (by decide) (by decide)
    (by decide!) (by decide),
   c6_cycle_termination.2.2 [ln_ab, ln_ba] [] "a" none⟩

/-! ## C1 — ownership conservation -/

/-- The node ids the aggregation can ever see: the root and the endpoints of
every link. -/
def relevant_nodes (links : List OwnershipLink) (root : String) : List String :=
  root :: links.foldr (fun l acc => l.owner_contact_id :: l.owned_contact_id :: acc) []

/-- The sum of the aggregated effective percentages over the leaf
individuals (those with no incoming weighted link). -/
def leaf_total (links : List OwnershipLink) (cs : List Contact) (root : String) : ℚ :=
  (((aggregate_effective (effective_ownership_paths links cs root)).filter
      (fun kv => decide (incoming_of links kv.1 = []))).map Prod.snd).sum

/-- The leaf-restricted mass of a path map. -/
def leaf_mass (links : List OwnershipLink)
    (r : List (String × List (List String × ℚ))) : ℚ :=
  (r.map (fun kv =>
    if incoming_of links kv.1 = [] then (kv.2.map Prod.snd).sum else 0)).sum

lemma leaf_total_eq (links : List OwnershipLink) (cs : List Contact) (root : String) :
    leaf_total links cs root = leaf_mass links (effective_ownership_paths links cs root) := by
  unfold leaf_total leaf_mass aggregate_effective
  generalize effective_ownership_paths links cs root = pm
  induction pm with
  | nil => rfl
  | cons kv rest ih =>
    simp only [List.map_cons, List.filter_cons]
    by_cases h : incoming_of links kv.1 = []
    · simp [h, ih]
    · simp [h, ih]

lemma leaf_mass_push (links : List OwnershipLink)
    (r : List (String × List (List String × ℚ))) (k : String) (e : List String × ℚ) :
    leaf_mass links (push_result r k e)
      = leaf_mass links r + (if incoming_of links k = [] then e.2 else 0) := by
  induction r with
  | nil =>
    unfold push_result leaf_mass
    by_cases h : incoming_of links k = [] <;> simp [h]
  | cons kv rest ih =>
    by_cases hk : kv.1 = k
    · unfold push_result
      rw [if_pos hk]
      unfold leaf_mass
      simp only [List.map_cons, List.sum_cons]
      rw [hk]
      by_cases h : incoming_of links k = [] <;> simp [h] <;> ring
    · unfold push_result
      rw [if_neg hk]
      unfold leaf_mass at ih ⊢
      simp only [List.map_cons, List.sum_cons, ih]
      ring

lemma incoming_owner_mem_nodes {links : List OwnershipLink} {root n : String}
    {ow : String × ℚ} (h : ow ∈ incoming_of links n) :
    ow.1 ∈ relevant_nodes links root := by
  unfold incoming_of at h
  obtain ⟨l, hl, hlow⟩ := List.mem_filterMap.mp h
  have howner : ow.1 = l.owner_contact_id := by
    split at hlow
    · split at hlow
      · injection hlow with hh
        rw [← hh]
      · cases hlow
      · injection hlow with hh
        rw [← hh]
      · cases hlow
    · cases hlow
  rw [howner]
  exact List.mem_cons_of_mem _ (mem_endpoint_list hl).1

/-- C1 counterexample: a graph satisfying the claim's hypotheses — acyclic
(witnessed by a rank that increases along every link) with the incoming
`ownership` percentages summing to exactly 100 at every node that has any —
in which a `control` edge into the root makes the leaf-individual total 200,
not 100 ± 0.01. -/
theorem c1_counterexample :
    (∀ n ∈ relevant_nodes [ln_p_owns_r, ln_q_controls_r] "R",
        total_ownership_into [ln_p_owns_r, ln_q_controls_r] n = 100
          ∨ [ln_p_owns_r, ln_q_controls_r].filter (fun l =>
              decide (l.owned_contact_id = n)
                && decide (l.link_type = OwnershipLinkType.ownership)) = [])
    ∧ (∀ l ∈ [ln_p_owns_r, ln_q_controls_r],
        (if l.owned_contact_id = "R" then 0 else 1)
          < (if l.owner_contact_id = "R" then (0 : Nat) else 1))
    ∧ leaf_total [ln_p_owns_r, ln_q_controls_r] [ct_r, ct_p, ct_q] "R" = 200
    ∧ ¬ (|(200 : ℚ) - 100| ≤ 1/100) := by
  decide!

/-- The conservation invariant of the aggregation DFS: starting the walk at
`u` with mass `product` adds exactly `product` to the leaf-restricted mass,
and every newly recorded visited key extends the current path.  The rank
function witnesses acyclicity and bounds every chain within the depth
budget; the hypotheses over `relevant_nodes` say each weighted in-list has
distinct owners, non-negative weights summing to 100 (when non-empty), and
that weight-less nodes are individuals. -/
lemma dfs_agg_mass (links : List OwnershipLink) (cs : List Contact) (root : String)
    (rank : String → ℕ)
    (H1 : ∀ n ∈ relevant_nodes links root, ((incoming_of links n).map Prod.fst).Nodup)
    (H2 : ∀ n ∈ relevant_nodes links root, ∀ ow ∈ incoming_of links n, 0 ≤ ow.2)
    (H3 : ∀ n ∈ relevant_nodes links root, incoming_of links n ≠ [] →
      ((incoming_of links n).map Prod.snd).sum = 100)
    (H4 : ∀ n ∈ relevant_nodes links root, incoming_of links n = [] →
      is_individual cs n = true)
    (H5 : ∀ n ∈ relevant_nodes links root, ∀ ow ∈ incoming_of links n,
      rank n < rank ow.1)
    (H6 : ∀ n ∈ relevant_nodes links root, rank n ≤ MAX_DEPTH) :
    ∀ (f : Nat) (u : String) (p : List String) (product : ℚ) (st : AggSt),
      u ∈ relevant_nodes links root →
      (∀ x ∈ p, rank x < rank u) →
      p.length ≤ rank u →
      f = MAX_DEPTH + 1 - p.length →
      0 ≤ product →
      (∀ k ∈ st.visited, ¬ (p ++ [u]) <+: k) →
      leaf_mass links (dfs_agg (incoming_of links) cs f u p product st).result
          = leaf_mass links st.result + product
        ∧ (∀ k ∈ (dfs_agg (incoming_of links) cs f u p product st).visited,
            k ∈ st.visited ∨ (p ++ [u]) <+: k) := by
  have hmd : MAX_DEPTH = 20 := rfl
  intro f
  induction f with
  | zero =>
    intro u p product st hu _ hplen hf _ _
    have h6 := H6 u hu
    rw [hmd] at hf h6
    omega
  | succ g ih =>
    intro u p product st hu hrk hplen hf hprod hvis
    by_cases hp0 : product ≤ 0
    · have hz : product = 0 := le_antisymm hp0 hprod
      unfold dfs_agg
      rw [if_pos hp0]
      exact ⟨by rw [hz]; ring, fun k hk => Or.inl hk⟩
    · have hkey : ¬ (p ++ [u]) ∈ st.visited :=
        fun hmem => hvis _ hmem (List.prefix_refl _)
      have heq : dfs_agg (incoming_of links) cs (g + 1) u p product st
          = (incoming_of links u).foldl
              (fun st' ow =>
                if ow.1 ∈ p then st'
                else dfs_agg (incoming_of links) cs g ow.1 (p ++ [u])
                  (product * (ow.2 / 100)) st')
              (if is_individual cs u then
                 (⟨(p ++ [u]) :: st.visited,
                   push_result st.result u (p ++ [u], product)⟩ : AggSt)
               else ⟨(p ++ [u]) :: st.visited, st.result⟩) := by
        rw [dfs_agg]
        rw [if_neg hp0, if_neg hkey]
      have h6u := H6 u hu
      have hfold : ∀ (ts : List (String × ℚ)),
          (∀ ow ∈ ts, ow ∈ incoming_of links u) →
          (ts.map Prod.fst).Nodup →
          ∀ st' : AggSt,
            (∀ k ∈ st'.visited, ∀ ow ∈ ts, ¬ ((p ++ [u]) ++ [ow.1]) <+: k) →
            leaf_mass links ((ts.foldl
                (fun st' ow =>
                  if ow.1 ∈ p then st'
                  else dfs_agg (incoming_of links) cs g ow.1 (p ++ [u])
                    (product * (ow.2 / 100)) st')
                st').result)
              = leaf_mass links st'.result + product * ((ts.map Prod.snd).sum / 100)
            ∧ (∀ k ∈ (ts.foldl
                (fun st' ow =>
                  if ow.1 ∈ p then st'
                  else dfs_agg (incoming_of links) cs g ow.1 (p ++ [u])
                    (product * (ow.2 / 100)) st')
                st').visited,
                k ∈ st'.visited ∨ ∃ ow ∈ ts, ((p ++ [u]) ++ [ow.1]) <+: k) := by
        intro ts
        induction ts with
        | nil =>
          intro _ _ st' _
          simp only [List.foldl_nil, List.map_nil, List.sum_nil]
          constructor
          · rw [zero_div, mul_zero, add_zero]
          · exact fun k hk => Or.inl hk
        | cons ow ts' iht =>
          intro hmem hnd st' hv'
          have how_in : ow ∈ incoming_of links u := hmem ow (List.mem_cons_self ow ts')
          have hrank_ow : rank u < rank ow.1 := H5 u hu ow how_in
          have hnotp : ¬ ow.1 ∈ p := by
            intro hin
            have := hrk ow.1 hin
            omega
          rw [List.foldl_cons, if_neg hnotp]
          have hchild := ih ow.1 (p ++ [u]) (product * (ow.2 / 100)) st'
            (incoming_owner_mem_nodes how_in)
            (by
              intro x hx
              rcases List.mem_append.mp hx with hx | hx
              · exact lt_trans (hrk x hx) hrank_ow
              · rw [List.mem_singleton.mp hx]
                exact hrank_ow)
            (by
              rw [List.length_append, List.length_singleton]
              omega)
            (by
              rw [List.length_append, List.length_singleton]
              rw [hmd] at hf h6u ⊢
              omega)
            (mul_nonneg hprod (div_nonneg (H2 u hu ow how_in) (by norm_num)))
            (fun k hk => hv' k hk ow (List.mem_cons_self ow ts'))
          obtain ⟨hcm, hcv⟩ := hchild
          have hnd' : (ts'.map Prod.fst).Nodup := by
            rw [List.map_cons] at hnd
            exact (List.nodup_cons.mp hnd).2
          have hhead : ¬ ow.1 ∈ ts'.map Prod.fst := by
            rw [List.map_cons] at hnd
            exact (List.nodup_cons.mp hnd).1
          have hrec := iht (fun x hx => hmem x (List.mem_cons_of_mem ow hx)) hnd'
            (dfs_agg (incoming_of links) cs g ow.1 (p ++ [u])
              (product * (ow.2 / 100)) st')
            (by
              intro k hk ow' how' hpre
              rcases hcv k hk with hk' | hpre2
              · exact hv' k hk' ow' (List.mem_cons_of_mem ow how') hpre
              · have hlen : ((p ++ [u]) ++ [ow.1]).length
                    = ((p ++ [u]) ++ [ow'.1]).length := by
                  simp
                have heqp : (p ++ [u]) ++ [ow.1] = (p ++ [u]) ++ [ow'.1] := by
                  rcases List.prefix_or_prefix_of_prefix hpre2 hpre with hh | hh
                  · exact hh.eq_of_length hlen
                  · exact (hh.eq_of_length hlen.symm).symm
                have how_eq : ow.1 = ow'.1 := by
                  have h2 := List.append_cancel_left heqp
                  simpa using h2
                apply hhead
                rw [how_eq]
                exact List.mem_map_of_mem Prod.fst how')
          obtain ⟨hrm, hrv⟩ := hrec
          constructor
          · rw [hrm, hcm, List.map_cons, List.sum_cons]
            ring
          · intro k hk
            rcases hrv k hk with hk' | ⟨ow', how', hpre⟩
            · rcases hcv k hk' with hk'' | hpre
              · exact Or.inl hk''
              · exact Or.inr ⟨ow, List.mem_cons_self ow ts', hpre⟩
            · exact Or.inr ⟨ow', List.mem_cons_of_mem ow how', hpre⟩
      rw [heq]
      have hvfold : ∀ k ∈ (if is_individual cs u then
            (⟨(p ++ [u]) :: st.visited,
              push_result st.result u (p ++ [u], product)⟩ : AggSt)
          else ⟨(p ++ [u]) :: st.visited, st.result⟩).visited,
          ∀ ow ∈ incoming_of links u, ¬ ((p ++ [u]) ++ [ow.1]) <+: k := by
        have hv2 : (if is_individual cs u then
              (⟨(p ++ [u]) :: st.visited,
                push_result st.result u (p ++ [u], product)⟩ : AggSt)
            else ⟨(p ++ [u]) :: st.visited, st.result⟩).visited
            = (p ++ [u]) :: st.visited := by
          split_ifs <;> rfl
        rw [hv2]
        intro k hk ow _ hpre
        rcases List.mem_cons.mp hk with hk | hk
        · subst hk
          have hle := hpre.length_le
          simp at hle
        · exact hvis k hk (List.IsPrefix.trans (List.prefix_append _ _) hpre)
      have hmfold := hfold (incoming_of links u) (fun ow h => h) (H1 u hu) _ hvfold
      obtain ⟨hm, hv⟩ := hmfold
      have hmst2 : leaf_mass links (if is_individual cs u then
            (⟨(p ++ [u]) :: st.visited,
              push_result st.result u (p ++ [u], product)⟩ : AggSt)
          else ⟨(p ++ [u]) :: st.visited, st.result⟩).result
          = leaf_mass links st.result
            + (if incoming_of links u = [] then product else 0) := by
        by_cases hind : is_individual cs u = true
        · rw [if_pos hind]
          exact leaf_mass_push links st.result u (p ++ [u], product)
        · rw [if_neg hind]
          by_cases hinc : incoming_of links u = []
          · exact absurd (H4 u hu hinc) hind
          · rw [if_neg hinc, add_zero]
      constructor
      · rw [hm, hmst2]
        by_cases hinc : incoming_of links u = []
        · rw [hinc]
          simp
        · rw [if_neg hinc, H3 u hu hinc, add_zero]
          norm_num
      · intro k hk
        rcases hv k hk with hk' | ⟨ow, _, hpre⟩
        · have hv2 : (if is_individual cs u then
                (⟨(p ++ [u]) :: st.visited,
                  push_result st.result u (p ++ [u], product)⟩ : AggSt)
              else ⟨(p ++ [u]) :: st.visited, st.result⟩).visited
              = (p ++ [u]) :: st.visited := by
            split_ifs <;> rfl
          rw [hv2] at hk'
          rcases List.mem_cons.mp hk' with hk'' | hk''
          · exact Or.inr (hk'' ▸ List.prefix_refl _)
          · exact Or.inl hk''
        · exact Or.inr (List.IsPrefix.trans (List.prefix_append _ _) hpre)

/-- C1 (amended): for every graph that is acyclic (witnessed by a rank
increasing along every weighted link, bounded by the depth cap 20) in which
every node reachable by the aggregation has distinct owners per node (no
parallel links), non-negative weights, weighted in-edges summing to exactly
100 wherever any exist, and individuals at every weight-less node, the sum
of the effective percentages the aggregation assigns to the leaf
individuals is exactly 100.  (The weighted links are the `ownership` links
with a percentage and the `control` links; the original claim fails when a
`control` link, a parallel link, a non-individual leaf, an owned individual
with a partial in-sum, or a chain deeper than the cap is present.) -/
theorem c1_ownership_conservation (links : List OwnershipLink) (cs : List Contact)
    (root : String) (rank : String → ℕ)
    (H1 : ∀ n ∈ relevant_nodes links root, ((incoming_of links n).map Prod.fst).Nodup)
    (H2 : ∀ n ∈ relevant_nodes links root, ∀ ow ∈ incoming_of links n, 0 ≤ ow.2)
    (H3 : ∀ n ∈ relevant_nodes links root, incoming_of links n ≠ [] →
      ((incoming_of links n).map Prod.snd).sum = 100)
    (H4 : ∀ n ∈ relevant_nodes links root, incoming_of links n = [] →
      is_individual cs n = true)
    (H5 : ∀ n ∈ relevant_nodes links root, ∀ ow ∈ incoming_of links n,
      rank n < rank ow.1)
    (H6 : ∀ n ∈ relevant_nodes links root, rank n ≤ MAX_DEPTH) :
    leaf_total links cs root = 100 := by
  rw [leaf_total_eq]
  have h := dfs_agg_mass links cs root rank H1 H2 H3 H4 H5 H6 (MAX_DEPTH + 1) root []
    100 ⟨[], []⟩ (List.mem_cons_self root _)
    (by intro x hx; cases hx)
    (Nat.zero_le _)
    (by simp)
    (by norm_num)
    (by intro k hk; cases hk)
  unfold effective_ownership_paths
  rw [h.1]
  simp [leaf_mass]

/-- C1 witness: the one-owner graph P →(100%) R, ranked R ↦ 0, P ↦ 1. -/
theorem c1_ownership_conservation_witness :
    leaf_total [ln_p_owns_r] [ct_r, ct_p] "R" = 100 :=
  c1_ownership_conservation [ln_p_owns_r] [ct_r, ct_p] "R"
    (fun n => if n = "R" then 0 else 1)
    (by decide!) (by decide!) (by decide!) (by decide!) (by decide!) (by decide!)

end CSP
